import Mathlib

/-!
Verification of the include-shader repository: the dependency graph with
cycle detection (`src/dependency_graph.rs`) and the recursive include
resolver (`src/lib.rs`), shallowly embedded as executable Lean functions.

The Rust `HashMap<String, HashSet<String>>` is modelled as an
insertion-ordered association list, a deterministic realisation of the
unspecified hash iteration order.  Recursive procedures whose termination
is not structural (DFS, BFS, the resolver loop) take an explicit fuel
argument; lemmas below show the fuel chosen by the top-level entry points
is always sufficient, so the fuel-exhaustion branches are unreachable and
the model computes exactly what the Rust code computes.
-/

namespace IncludeShader

/-- Document identifiers: canonical strings (`String` keys in the Rust code). -/
abbrev V := String

/-- The graph of `DependencyGraph { graph: HashMap<String, HashSet<String>> }`,
as an insertion-ordered association list from a vertex to its child list. -/
abbrev Graph := List (V × List V)

/-- Lookup of `self.graph.get(&a)`. -/
def lookupChildren : Graph → V → Option (List V)
  | [], _ => none
  | (k, cs) :: rest, a => if k = a then some cs else lookupChildren rest a

/-- Children of a vertex; a missing entry means no children (the Rust code
treats `None` from `get` as an empty child set). -/
def childrenOf (g : Graph) (a : V) : List V := (lookupChildren g a).getD []

/-- `HashSet::insert`: add `b` to the child set if not present. -/
def insertChild (cs : List V) (b : V) : List V := if b ∈ cs then cs else cs ++ [b]

/-- `DependencyGraph::add_edge`: if `a` has an entry, insert `b` into its set,
otherwise insert a fresh entry `a ↦ {b}`. -/
def add_edge : Graph → V → V → Graph
  | [], a, b => [(a, [b])]
  | (k, cs) :: rest, a, b =>
    if k = a then (k, insertChild cs b) :: rest else (k, cs) :: add_edge rest a b

/-- A graph built from the empty graph by a sequence of `add_edge` calls. -/
def buildGraph (es : List (V × V)) : Graph :=
  es.foldl (fun g e => add_edge g e.1 e.2) []

/-- All vertices mentioned anywhere in the graph (keys and children). -/
def vertsRaw : Graph → List V
  | [] => []
  | (k, cs) :: rest => k :: (cs ++ vertsRaw rest)

/-- The vertex list deduplicated, for fuel bounds. -/
def vertsList (g : Graph) : List V := (vertsRaw g).dedup

/-- `HashSet::insert` on a set represented as a list. -/
def insertS (s : List V) (v : V) : List V := if v ∈ s then s else v :: s

/-- `HashSet::remove` on a set represented as a list. -/
def eraseS (s : List V) (v : V) : List V := s.erase v

/-- Result of one `dfs_visit` call: the optional back edge plus the updated
`discovered` and `finished` sets. -/
abbrev DfsRes := Option (V × V) × List V × List V

/-- The `for child in children` loop body of `dfs_visit`, parameterised by the
recursive call `step` (which is `dfs_visit` at the next smaller fuel).
If a child is discovered we found a back edge `(child, vertex)`; children that
are finished are skipped; otherwise the child is visited recursively. -/
def dfs_children (step : V → List V → List V → Option DfsRes) :
    List V → V → List V → List V → Option DfsRes
  | [], _, discovered, finished => some (none, discovered, finished)
  | child :: rest, vertex, discovered, finished =>
    if child ∈ discovered then some (some (child, vertex), discovered, finished)
    else if child ∈ finished then dfs_children step rest vertex discovered finished
    else
      match step child discovered finished with
      | none => none
      | some (some e, d, f) => some (some e, d, f)
      | some (none, d, f) => dfs_children step rest vertex d f

/-- `DependencyGraph::dfs_visit`, with fuel: mark the vertex discovered, scan
its children, then unmark it and mark it finished.  `none` is fuel
exhaustion (shown unreachable for the fuel chosen in `find_back_edge`). -/
def dfs_visit (g : Graph) : Nat → V → List V → List V → Option DfsRes
  | 0, _, _, _ => none
  | fuel + 1, vertex, discovered, finished =>
    match dfs_children (dfs_visit g fuel) (childrenOf g vertex) vertex
        (insertS discovered vertex) finished with
    | none => none
    | some (some e, d, f) => some (some e, d, f)
    | some (none, d, f) => some (none, eraseS d vertex, insertS f vertex)

/-- Fuel sufficient for a full DFS: one more than the number of distinct
vertices. -/
def dfsFuel (g : Graph) : Nat := (vertsList g).length + 1

/-- The `for vertex in self.graph.keys()` loop of `find_back_edge`, threading
the `discovered` and `finished` sets through the roots. -/
def find_back_edge_go (g : Graph) : List V → List V → List V → Option (V × V)
  | [], _, _ => none
  | v :: rest, discovered, finished =>
    if v ∈ discovered ∧ v ∈ finished then find_back_edge_go g rest discovered finished
    else
      match dfs_visit g (dfsFuel g) v discovered finished with
      | none => none
      | some (some e, _, _) => some e
      | some (none, d, f) => find_back_edge_go g rest d f

/-- `DependencyGraph::find_back_edge`: DFS over all keys of the graph. -/
def find_back_edge (g : Graph) : Option (V × V) :=
  find_back_edge_go g (g.map Prod.fst) [] []

/-- The inner `for child in children` loop of `find_shortest_path`: push
unvisited children, record predecessors, stop early when the goal is found.
Returns the updated queue, visited set, predecessor map and whether the goal
was reached. -/
def bfs_scan (goal vertex : V) :
    List V → List V → List V → List (V × V) → List V × List V × List (V × V) × Bool
  | [], queue, visited, preds => (queue, visited, preds, false)
  | child :: rest, queue, visited, preds =>
    if child ∈ visited then bfs_scan goal vertex rest queue visited preds
    else if child = goal then
      (queue ++ [child], child :: visited, preds ++ [(child, vertex)], true)
    else
      bfs_scan goal vertex rest (queue ++ [child]) (child :: visited)
        (preds ++ [(child, vertex)])

/-- The `while !queue.is_empty()` loop of `find_shortest_path`, with fuel.
The inner `Option` is the Rust return value (`none` when the goal is
unreachable); the outer `none` is fuel exhaustion (shown unreachable). -/
def bfs_go (g : Graph) (goal : V) :
    Nat → List V → List V → List (V × V) → Option (Option (List (V × V)))
  | 0, _, _, _ => none
  | fuel + 1, queue, visited, preds =>
    match queue with
    | [] => some none
    | v :: qrest =>
      if v = goal then some (some preds)
      else
        match bfs_scan goal v (childrenOf g v) qrest visited preds with
        | (q', vis', preds', found) =>
          if found then some (some preds') else bfs_go g goal fuel q' vis' preds'

/-- Fuel sufficient for a full BFS. -/
def bfsFuel (g : Graph) : Nat := 2 * (vertsList g).length + 2

/-- `DependencyGraph::find_shortest_path`: BFS from `start` recording a
predecessor map, returning it as soon as `goal` is reached.  The fuel
chosen is proved sufficient, so `getD none` never masks fuel exhaustion. -/
def find_shortest_path (g : Graph) (start goal : V) : Option (List (V × V)) :=
  (bfs_go g goal (bfsFuel g) [start] [start] []).getD none

/-- `HashMap::get` on the predecessor map. -/
def lookupPred : List (V × V) → V → Option V
  | [], _ => none
  | (c, p) :: rest, x => if c = x then some p else lookupPred rest x

/-- The `while let Some(predecessor) = predecessors.get(&crawl)` loop of
`reconstruct_cycle_path`, with fuel (sufficient for predecessor maps
produced by the BFS, whose chains are strictly decreasing). -/
def crawl_go : Nat → List (V × V) → V → List V → List V
  | 0, _, _, path => path
  | fuel + 1, preds, crawl, path =>
    match lookupPred preds crawl with
    | none => path
    | some p => crawl_go fuel preds p (path ++ [p])

/-- `DependencyGraph::reconstruct_cycle_path`: walk predecessors from `stop`
back to `start`, reverse, and close the loop by appending `start`. -/
def reconstruct_cycle_path (start stop : V) (preds : List (V × V)) : List V :=
  (crawl_go (preds.length + 1) preds stop [stop]).reverse ++ [start]

/-- `DependencyGraph::find_cycle`.  The Rust code unwraps the result of
`find_shortest_path`; `find_shortest_path_isSome_of_back_edge` below shows
that branch is never `none`, so returning `none` there is unreachable. -/
def find_cycle (g : Graph) : Option (List V) :=
  match find_back_edge g with
  | none => none
  | some (c, a) =>
    match find_shortest_path g c a with
    | none => none
    | some preds => some (reconstruct_cycle_path c a preds)

/-- The edge relation of the graph: `b` is a child of `a`. -/
def Edge (g : Graph) (a b : V) : Prop := b ∈ childrenOf g a

instance (g : Graph) (a b : V) : Decidable (Edge g a b) :=
  inferInstanceAs (Decidable (b ∈ childrenOf g a))

/-- Reachability: the reflexive-transitive closure of the edge relation. -/
def Reach (g : Graph) : V → V → Prop := Relation.ReflTransGen (Edge g)

/-- A directed cycle exists: some edge `u → w` closes back from `w` to `u`. -/
def HasCycle (g : Graph) : Prop := ∃ u w, Edge g u w ∧ Reach g w u

/-- Reachability in exactly `n` steps. -/
inductive ReachN (g : Graph) : Nat → V → V → Prop where
  | refl (a : V) : ReachN g 0 a a
  | head {a b c : V} {n : Nat} : Edge g a b → ReachN g n b c → ReachN g (n + 1) a c

/-- A list of vertices is a chain of edges of `g`, starts at its first
element, ends at its last, and the first and last elements are equal:
the shape `find_cycle` promises for a returned cycle. -/
def ValidCycle (g : Graph) (p : List V) : Prop :=
  2 ≤ p.length ∧ p.head? = p.getLast? ∧ List.Chain' (Edge g) p

/-- Executable edge-chain check, for deciding `ValidCycle` by computation. -/
def edgeChainB (g : Graph) : List V → Bool
  | [] => true
  | [_] => true
  | a :: b :: rest => decide (Edge g a b) && edgeChainB g (b :: rest)

instance (g : Graph) (p : List V) : Decidable (ValidCycle g p) :=
  decidable_of_iff (2 ≤ p.length ∧ p.head? = p.getLast? ∧ edgeChainB g p = true)
    (by
      have hiff : ∀ l, edgeChainB g l = true ↔ List.Chain' (Edge g) l := by
        intro l
        induction l with
        | nil => simp [edgeChainB]
        | cons a rest ih =>
          cases rest with
          | nil => simp [edgeChainB]
          | cons b rest2 =>
            rw [edgeChainB, List.chain'_cons, Bool.and_eq_true,
              decide_eq_true_iff, ih]
      constructor
      · rintro ⟨h1, h2, h3⟩
        exact ⟨h1, h2, (hiff p).mp h3⟩
      · rintro ⟨h1, h2, h3⟩
        exact ⟨h1, h2, (hiff p).mpr h3⟩)

/-! ### The include-directive matcher

The Rust resolver scans with the regex `#include\s+"(.*)"` (crate `regex`,
leftmost-first semantics; `.` does not match a newline, `.*` is greedy so
the capture extends to the last `"` on the matched line). -/

/-- Text is modelled as a list of characters. -/
abbrev Str := List Char

/-- The whitespace class `\s` of the regex crate (ASCII part). -/
def isWs (c : Char) : Bool :=
  c = ' ' ∨ c = '\t' ∨ c = '\n' ∨ c = '\r' ∨ c = '\x0b' ∨ c = '\x0c'

/-- The literal `#include`. -/
def includeLit : Str := "#include".toList

/-- Strip an expected literal from the front of the text. -/
def dropLit : Str → Str → Option Str
  | [], s => some s
  | _ :: _, [] => none
  | l :: ls, c :: cs => if c = l then dropLit ls cs else none

/-- Index of the last `"` in a string, if any. -/
def lastQuoteIdx : Str → Option Nat
  | [] => none
  | c :: rest =>
    match lastQuoteIdx rest with
    | some i => some (i + 1)
    | none => if c = '"' then some 0 else none

/-- Match the regex `#include\s+"(.*)"` at the start of `s`: the literal, one
or more whitespace characters (greedily, then a `"` must follow), the opening
quote, then the greedy `.*` span (up to the next newline) must contain a
closing quote, the capture ending at the last `"` of the span.
Returns the total matched length and the captured path. -/
def matchAt (s : Str) : Option (Nat × Str) :=
  match dropLit includeLit s with
  | none => none
  | some rest =>
    let wsLen := (rest.takeWhile isWs).length
    if wsLen = 0 then none
    else
      match rest.drop wsLen with
      | '"' :: after =>
        match lastQuoteIdx (after.takeWhile (fun c => c ≠ '\n')) with
        | none => none
        | some i => some (includeLit.length + wsLen + 1 + i + 1, after.take i)
      | _ => none

/-- Leftmost-match scan: try `matchAt` at each position left to right.
Returns (start, length, captured path). -/
def scanFrom : Str → Nat → Option (Nat × Nat × Str)
  | [], _ => none
  | c :: rest, pos =>
    match matchAt (c :: rest) with
    | some (len, cap) => some (pos, len, cap)
    | none => scanFrom rest (pos + 1)

/-- `INCLUDE_RE.captures(&result)`: the leftmost match of the directive
pattern, as (start, length, captured path). -/
def findMatch (s : Str) : Option (Nat × Nat × Str) := scanFrom s 0

/-- All positions at which the directive pattern matches (to state that a
text contains exactly one directive). -/
def matchPositions (s : Str) : List Nat :=
  (List.range (s.length + 1)).filter (fun i => (matchAt (s.drop i)).isSome)

/-! ### The resolver

`process_file` reads a document and hands it to `process_includes`, which
repeatedly substitutes the leftmost directive by the recursively resolved
target, adding an edge to the shared dependency graph and checking for a
cycle after every insertion.  The outside collaborators are abstracted:
storage is a finite map from identifiers to contents, and path
canonicalization is the identity on identifier strings (the spec requires
only a deterministic, comparison-stable identifier function). -/

/-- The failure taxonomy of the resolver (the Rust code panics; the panic
message for a cycle joins the path with an arrow separator, see
`renderCycle`). -/
inductive RErr where
  | documentUnreadable : String → RErr
  | circularDependency : List V → RErr
deriving DecidableEq

/-- The arrow-joined rendering `cycle.join(" -> ")` used in the
`CircularDependency` panic message. -/
def renderCycle (cyc : List V) : String := String.intercalate " -> " cyc

/-- Modelled from the spec: the storage-read collaborator (`read_to_string`),
a finite map from canonical identifiers to raw text. -/
abbrev FileSys := List (String × Str)

/-- Look a document up in the modelled storage. -/
def readFile : FileSys → String → Option Str
  | [], _ => none
  | (p, t) :: rest, q => if p = q then some t else readFile rest q

/-- Modelled from the spec: the path-canonicalization collaborator
(`resolve_path` / `canonicalize`), abstracted as the identity on
already-canonical identifier strings. -/
def resolve_path (cap : Str) : String := String.mk cap

mutual

/-- `process_file`: read the document (aborting with `DocumentUnreadable` if
missing) and resolve its includes.  Fuel bounds the recursion and the
substitution loop; `none` is fuel exhaustion. -/
def process_file (fs : FileSys) : Nat → String → Graph → Option (Except RErr (Str × Graph))
  | 0, _, _ => none
  | fuel + 1, path, g =>
    match readFile fs path with
    | none => some (.error (.documentUnreadable path))
    | some content => process_includes fs fuel path content g

/-- `process_includes`: while the text has a directive match, resolve the
captured path, add the edge to the shared graph, abort if a cycle appeared,
otherwise splice the recursively resolved target over the matched span and
rescan from the top. -/
def process_includes (fs : FileSys) : Nat → String → Str → Graph → Option (Except RErr (Str × Graph))
  | 0, _, _, _ => none
  | fuel + 1, source_path, result, g =>
    match findMatch result with
    | none => some (.ok (result, g))
    | some (start, len, cap) =>
      let include_path := resolve_path cap
      let g1 := add_edge g source_path include_path
      match find_cycle g1 with
      | some cyc => some (.error (.circularDependency cyc))
      | none =>
        match process_file fs fuel include_path g1 with
        | none => none
        | some (.error e) => some (.error e)
        | some (.ok (txt, g2)) =>
          process_includes fs fuel source_path
            (result.take start ++ txt ++ result.drop (start + len)) g2

end

/-! ### Invariant predicates used by the verification -/

/-- A finished set is closed under edges. -/
def Closed (g : Graph) (F : List V) : Prop := ∀ u ∈ F, ∀ w, Edge g u w → w ∈ F

/-- No finished vertex lies on a cycle. -/
def CycFree (g : Graph) (F : List V) : Prop :=
  ∀ u ∈ F, ¬ ∃ w, Edge g u w ∧ Reach g w u

/-- The invariant of the `finished` set across DFS calls. -/
def GoodFin (g : Graph) (F : List V) : Prop := Closed g F ∧ CycFree g F

/-- Number of vertices not yet in the set `d`. -/
def freeCount (g : Graph) (d : List V) : Nat :=
  ((vertsList g).filter (fun x => x ∉ d)).length

/-- Predecessor maps produced by the BFS: entries are appended with a child
that is new (not the start, not an earlier child) and a predecessor that is
the start or an earlier child.  `K` lists the children in insertion order. -/
inductive WFP (s : V) : List (V × V) → List V → Prop where
  | nil : WFP s [] []
  | snoc {preds K c p} : WFP s preds K → (p = s ∨ p ∈ K) → c ≠ s → c ∉ K →
      WFP s (preds ++ [(c, p)]) (K ++ [c])

/-- The predecessor walk from `x` produces exactly the vertex list `t`. -/
inductive CrawlsTo (preds : List (V × V)) : V → List V → Prop where
  | stop {x} : lookupPred preds x = none → CrawlsTo preds x [x]
  | step {x p t} : lookupPred preds x = some p → CrawlsTo preds p t →
      CrawlsTo preds x (x :: t)

/-- Walk distance: the crawl chain from `x` has `n` edges. -/
def WD (preds : List (V × V)) (x : V) (n : Nat) : Prop :=
  ∃ t, CrawlsTo preds x t ∧ t.length = n + 1

/-- Texts without a `#` cannot start or contain a directive match. -/
def noHash (t : Str) : Prop := ∀ c ∈ t, c ≠ '#'

instance (t : Str) : Decidable (noHash t) :=
  List.decidableBAll (fun c => c ≠ '#') t

end IncludeShader

namespace IncludeShader

/-! ### Basic lemmas about the graph representation -/

theorem insertChild_idem (cs : List V) (b : V) :
    insertChild (insertChild cs b) b = insertChild cs b := by
  unfold insertChild
  by_cases h : b ∈ cs
  · simp [h]
  · simp [h]

theorem add_edge_idem (g : Graph) (a b : V) :
    add_edge (add_edge g a b) a b = add_edge g a b := by
  induction g with
  | nil => simp [add_edge, insertChild]
  | cons hd rest ih =>
    obtain ⟨k, cs⟩ := hd
    by_cases h : k = a
    · simp [add_edge, h, insertChild_idem]
    · simp [add_edge, h, ih]

theorem childrenOf_cons (k : V) (cs : List V) (rest : Graph) (a : V) :
    childrenOf ((k, cs) :: rest) a = if k = a then cs else childrenOf rest a := by
  by_cases h : k = a <;> simp [childrenOf, lookupChildren, h]

theorem childrenOf_nil (a : V) : childrenOf [] a = [] := rfl

theorem childrenOf_mem_vertsRaw {g : Graph} {a b : V} (h : b ∈ childrenOf g a) :
    b ∈ vertsRaw g := by
  induction g with
  | nil => simp [childrenOf, lookupChildren] at h
  | cons hd rest ih =>
    obtain ⟨k, cs⟩ := hd
    rw [childrenOf_cons] at h
    by_cases hk : k = a
    · simp [hk] at h
      simp [vertsRaw, h]
    · simp [hk] at h
      simp [vertsRaw, ih h]

theorem key_mem_vertsRaw {g : Graph} {a : V} (h : a ∈ g.map Prod.fst) :
    a ∈ vertsRaw g := by
  induction g with
  | nil => simp at h
  | cons hd rest ih =>
    obtain ⟨k, cs⟩ := hd
    rw [List.map_cons] at h
    rcases List.mem_cons.mp h with h | h
    · simp [vertsRaw, h]
    · simp [vertsRaw, ih h]

theorem mem_vertsList {g : Graph} {a : V} (h : a ∈ vertsRaw g) : a ∈ vertsList g := by
  simpa [vertsList] using h

theorem edge_mem_keys {g : Graph} {a b : V} (h : Edge g a b) : a ∈ g.map Prod.fst := by
  unfold Edge childrenOf at h
  induction g with
  | nil => simp [lookupChildren] at h
  | cons hd rest ih =>
    obtain ⟨k, cs⟩ := hd
    by_cases hk : k = a
    · simp [hk]
    · simp [lookupChildren, hk] at h
      simp [ih h]

/-- A set of vertices closed under edges absorbs reachability. -/
theorem closed_reach {g : Graph} {F : List V}
    (hF : ∀ u ∈ F, ∀ w, Edge g u w → w ∈ F) {x y : V}
    (hx : x ∈ F) (hxy : Reach g x y) : y ∈ F := by
  induction hxy with
  | refl => exact hx
  | tail _ he ih => exact hF _ ih _ he

/-! ### Fuel accounting -/

theorem filter_length_mono {p q : V → Bool} (h : ∀ x, p x = true → q x = true)
    (l : List V) : (l.filter p).length ≤ (l.filter q).length := by
  induction l with
  | nil => simp
  | cons c rest ih =>
    cases hp : p c with
    | true =>
      rw [List.filter_cons_of_pos hp, List.filter_cons_of_pos (h c hp)]
      simpa using ih
    | false =>
      rw [List.filter_cons_of_neg (by simp [hp])]
      cases hq : q c with
      | true =>
        rw [List.filter_cons_of_pos hq]
        exact Nat.le_succ_of_le ih
      | false =>
        rw [List.filter_cons_of_neg (by simp [hq])]
        exact ih

theorem filter_length_strict {p q : V → Bool} (h : ∀ x, p x = true → q x = true)
    {l : List V} {v : V} (hv : v ∈ l) (hqv : q v = true) (hpv : p v = false) :
    (l.filter p).length < (l.filter q).length := by
  induction l with
  | nil => simp at hv
  | cons c rest ih =>
    by_cases hc : c = v
    · subst hc
      rw [List.filter_cons_of_neg (by simp [hpv]), List.filter_cons_of_pos hqv]
      exact Nat.lt_succ_of_le (filter_length_mono h rest)
    · have hv' : v ∈ rest := by
        rcases List.mem_cons.mp hv with h1 | h1
        · exact absurd h1.symm hc
        · exact h1
      cases hp : p c with
      | true =>
        rw [List.filter_cons_of_pos hp, List.filter_cons_of_pos (h c hp)]
        simpa using ih hv'
      | false =>
        rw [List.filter_cons_of_neg (by simp [hp])]
        cases hq : q c with
        | true =>
          rw [List.filter_cons_of_pos hq]
          exact Nat.lt_succ_of_lt (ih hv')
        | false =>
          rw [List.filter_cons_of_neg (by simp [hq])]
          exact ih hv'

theorem freeCount_insert_lt {g : Graph} {d : List V} {v : V}
    (hv : v ∈ vertsList g) (hvd : v ∉ d) :
    freeCount g (v :: d) < freeCount g d := by
  apply filter_length_strict (p := fun x => decide (x ∉ v :: d)) (q := fun x => decide (x ∉ d))
  · intro x hx
    simp only [decide_eq_true_iff] at hx ⊢
    exact fun hxd => hx (List.mem_cons_of_mem _ hxd)
  · exact hv
  · simpa using hvd
  · simp [hvd]

theorem freeCount_mono (g : Graph) (d : List V) (v : V) :
    freeCount g (v :: d) ≤ freeCount g d := by
  apply filter_length_mono (p := fun x => decide (x ∉ v :: d)) (q := fun x => decide (x ∉ d))
  intro x hx
  simp only [decide_eq_true_iff] at hx ⊢
  exact fun hxd => hx (List.mem_cons_of_mem _ hxd)


/-! ### Set-operation lemmas -/

theorem mem_insertS {s : List V} {v x : V} : x ∈ insertS s v ↔ x = v ∨ x ∈ s := by
  unfold insertS
  by_cases h : v ∈ s
  · simp [h]
    intro hx
    subst hx
    exact h
  · simp [h]

theorem insertS_of_not_mem {s : List V} {v : V} (h : v ∉ s) : insertS s v = v :: s := by
  simp [insertS, h]

theorem eraseS_insertS {s : List V} {v : V} (h : v ∉ s) : eraseS (insertS s v) v = s := by
  rw [insertS_of_not_mem h]
  simp [eraseS]

/-! ### DFS invariants

`dfs_children` lemmas are parametric in the recursive `step`, which lets each
property be proved by plain induction on the fuel of `dfs_visit`. -/

theorem goodFin_nil (g : Graph) : GoodFin g [] := by
  constructor <;> intro u hu <;> simp at hu

/-- Restoration across the children loop: a `none` result leaves `discovered`
exactly as it was. -/
theorem dfs_children_none_disc {step : V → List V → List V → Option DfsRes}
    (hstep : ∀ c d f d' f', c ∉ d → step c d f = some (none, d', f') → d' = d) :
    ∀ (cs : List V) (vtx : V) (d f d' f' : List V),
      dfs_children step cs vtx d f = some (none, d', f') → d' = d := by
  intro cs
  induction cs with
  | nil =>
    intro vtx d f d' f' h
    simp [dfs_children] at h
    exact h.1.symm
  | cons child rest ih =>
    intro vtx d f d' f' h
    rw [dfs_children] at h
    by_cases h1 : child ∈ d
    · simp [h1] at h
    · rw [if_neg h1] at h
      by_cases h2 : child ∈ f
      · rw [if_pos h2] at h
        exact ih vtx d f d' f' h
      · rw [if_neg h2] at h
        cases hs : step child d f with
        | none => rw [hs] at h; simp at h
        | some r =>
          obtain ⟨e, d2, f2⟩ := r
          cases e with
          | some e0 => rw [hs] at h; simp at h
          | none =>
            rw [hs] at h
            simp only at h
            have hd2 : d2 = d := hstep child d f d2 f2 h1 hs
            rw [hd2] at h
            exact ih vtx d f2 d' f' h

/-- Restoration for `dfs_visit`: the `discovered` set is restored on a `none`
result (the vertex removes itself after its subtree is finished). -/
theorem dfs_visit_none_disc (g : Graph) :
    ∀ (fuel : Nat) (v : V) (d f d' f' : List V), v ∉ d →
      dfs_visit g fuel v d f = some (none, d', f') → d' = d := by
  intro fuel
  induction fuel with
  | zero => intro v d f d' f' _ h; simp [dfs_visit] at h
  | succ fuel ih =>
    intro v d f d' f' hv h
    rw [dfs_visit] at h
    cases hc : dfs_children (dfs_visit g fuel) (childrenOf g v) v (insertS d v) f with
    | none => rw [hc] at h; simp at h
    | some r =>
      obtain ⟨e, d2, f2⟩ := r
      cases e with
      | some e0 => rw [hc] at h; simp at h
      | none =>
        rw [hc] at h
        simp only [Option.some.injEq, Prod.mk.injEq] at h
        obtain ⟨_, hd, _⟩ := h
        have hd2 : d2 = insertS d v :=
          dfs_children_none_disc (fun c d f d' f' => ih c d f d' f') _ v _ f d2 f2 hc
        subst hd2
        rw [← hd, eraseS_insertS hv]
  

/-- Invariant propagation across the children loop on a `none` result:
the finished set grows, stays `GoodFin`, and ends up containing every child. -/
theorem dfs_children_none_good {g : Graph} {step : V → List V → List V → Option DfsRes}
    (hstepd : ∀ c d f d' f', c ∉ d → step c d f = some (none, d', f') → d' = d)
    (hstep : ∀ c d f d' f', c ∉ d → GoodFin g f → step c d f = some (none, d', f') →
      GoodFin g f' ∧ (∀ x ∈ f, x ∈ f') ∧ c ∈ f') :
    ∀ (cs : List V) (vtx : V) (d f d' f' : List V), GoodFin g f →
      dfs_children step cs vtx d f = some (none, d', f') →
      GoodFin g f' ∧ (∀ x ∈ f, x ∈ f') ∧ (∀ c ∈ cs, c ∈ f') := by
  intro cs
  induction cs with
  | nil =>
    intro vtx d f d' f' hgood h
    simp [dfs_children] at h
    obtain ⟨_, hf⟩ := h
    subst hf
    exact ⟨hgood, fun x hx => hx, by simp⟩
  | cons child rest ih =>
    intro vtx d f d' f' hgood h
    rw [dfs_children] at h
    by_cases h1 : child ∈ d
    · simp [h1] at h
    · rw [if_neg h1] at h
      by_cases h2 : child ∈ f
      · rw [if_pos h2] at h
        obtain ⟨hg, hmono, hcs⟩ := ih vtx d f d' f' hgood h
        exact ⟨hg, hmono, fun c hc => by
          rcases List.mem_cons.mp hc with hc | hc
          · exact hc ▸ hmono child h2
          · exact hcs c hc⟩
      · rw [if_neg h2] at h
        cases hs : step child d f with
        | none => rw [hs] at h; simp at h
        | some r =>
          obtain ⟨e, d2, f2⟩ := r
          cases e with
          | some e0 => rw [hs] at h; simp at h
          | none =>
            rw [hs] at h
            simp only at h
            have hd2 : d2 = d := hstepd child d f d2 f2 h1 hs
            obtain ⟨hg2, hmono2, hchild⟩ := hstep child d f d2 f2 h1 hgood hs
            rw [hd2] at h
            obtain ⟨hg, hmono, hcs⟩ := ih vtx d f2 d' f' hg2 h
            refine ⟨hg, fun x hx => hmono x (hmono2 x hx), fun c hc => ?_⟩
            rcases List.mem_cons.mp hc with hc | hc
            · exact hc ▸ hmono child hchild
            · exact hcs c hc

/-- Invariant propagation for `dfs_visit` on a `none` result: the visited
vertex and its whole subtree end up finished, preserving `GoodFin`. -/
theorem dfs_visit_none_good (g : Graph) :
    ∀ (fuel : Nat) (v : V) (d f d' f' : List V), v ∉ d → GoodFin g f →
      dfs_visit g fuel v d f = some (none, d', f') →
      GoodFin g f' ∧ (∀ x ∈ f, x ∈ f') ∧ v ∈ f' := by
  intro fuel
  induction fuel with
  | zero => intro v d f d' f' _ _ h; simp [dfs_visit] at h
  | succ fuel ih =>
    intro v d f d' f' hv hgood h
    rw [dfs_visit] at h
    cases hc : dfs_children (dfs_visit g fuel) (childrenOf g v) v (insertS d v) f with
    | none => rw [hc] at h; simp at h
    | some r =>
      obtain ⟨e, d2, f2⟩ := r
      cases e with
      | some e0 => rw [hc] at h; simp at h
      | none =>
        rw [hc] at h
        simp only [Option.some.injEq, Prod.mk.injEq] at h
        obtain ⟨_, _, hf⟩ := h
        have hgf2 := dfs_children_none_good
          (fun c d f d' f' => dfs_visit_none_disc g fuel c d f d' f')
          (fun c d f d' f' => ih c d f d' f') (childrenOf g v) v (insertS d v) f d2 f2
          hgood hc
        obtain ⟨⟨hcl2, hcf2⟩, hmono2, hcs2⟩ := hgf2
        subst hf
        have hvmem : v ∈ insertS f2 v := mem_insertS.mpr (Or.inl rfl)
        have hclosed : Closed g (insertS f2 v) := by
          intro u hu w hw
          rcases mem_insertS.mp hu with hu | hu
          · subst hu
            exact mem_insertS.mpr (Or.inr (hcs2 w hw))
          · exact mem_insertS.mpr (Or.inr (hcl2 u hu w hw))
        have hcycfree : CycFree g (insertS f2 v) := by
          intro u hu hcyc
          obtain ⟨w, hw, hr⟩ := hcyc
          rcases mem_insertS.mp hu with hu | hu
          · subst hu
            have hwf2 : w ∈ f2 := hcs2 w hw
            have huf2 : u ∈ f2 := closed_reach hcl2 hwf2 hr
            exact hcf2 u huf2 ⟨w, hw, hr⟩
          · exact hcf2 u hu ⟨w, hw, hr⟩
        exact ⟨⟨hclosed, hcycfree⟩, fun x hx => mem_insertS.mpr (Or.inr (hmono2 x hx)),
          hvmem⟩

/-- Soundness across the children loop: a reported back edge really is an
edge into a vertex of the current stack, which reaches the reporting vertex. -/
theorem dfs_children_sound {g : Graph} {step : V → List V → List V → Option DfsRes}
    (hstepd : ∀ c d f d' f', c ∉ d → step c d f = some (none, d', f') → d' = d)
    (hsound : ∀ c d f e d' f', (∀ x ∈ d, Reach g x c) →
      step c d f = some (some e, d', f') → Edge g e.2 e.1 ∧ Reach g e.1 e.2) :
    ∀ (cs : List V) (vtx : V) (d f : List V) (e : V × V) (d' f' : List V),
      (∀ x ∈ d, Reach g x vtx) → (∀ c ∈ cs, Edge g vtx c) →
      dfs_children step cs vtx d f = some (some e, d', f') →
      Edge g e.2 e.1 ∧ Reach g e.1 e.2 := by
  intro cs
  induction cs with
  | nil =>
    intro vtx d f e d' f' _ _ h
    simp [dfs_children] at h
  | cons child rest ih =>
    intro vtx d f e d' f' hd hcs h
    rw [dfs_children] at h
    by_cases h1 : child ∈ d
    · simp only [if_pos h1, Option.some.injEq, Prod.mk.injEq] at h
      obtain ⟨he, _, _⟩ := h
      subst he
      exact ⟨hcs child (List.mem_cons_self _ _), hd child h1⟩
    · rw [if_neg h1] at h
      by_cases h2 : child ∈ f
      · rw [if_pos h2] at h
        exact ih vtx d f e d' f' hd (fun c hc => hcs c (List.mem_cons_of_mem _ hc)) h
      · rw [if_neg h2] at h
        cases hs : step child d f with
        | none => rw [hs] at h; simp at h
        | some r =>
          obtain ⟨e0, d2, f2⟩ := r
          cases e0 with
          | some e1 =>
            rw [hs] at h
            simp only [Option.some.injEq, Prod.mk.injEq] at h
            obtain ⟨he, _, _⟩ := h
            subst he
            have hreach : ∀ x ∈ d, Reach g x child := fun x hx =>
              Relation.ReflTransGen.tail (hd x hx) (hcs child (List.mem_cons_self _ _))
            exact hsound child d f e1 d2 f2 hreach hs
          | none =>
            rw [hs] at h
            simp only at h
            have hd2 : d2 = d := hstepd child d f d2 f2 h1 hs
            rw [hd2] at h
            exact ih vtx d f2 e d' f' hd (fun c hc => hcs c (List.mem_cons_of_mem _ hc)) h

/-- Soundness of `dfs_visit`: a reported back edge `(c, u)` means the graph
has the edge `u → c` and a path from `c` back to `u`, i.e. a cycle. -/
theorem dfs_visit_sound (g : Graph) :
    ∀ (fuel : Nat) (v : V) (d f : List V) (e : V × V) (d' f' : List V),
      (∀ x ∈ d, Reach g x v) →
      dfs_visit g fuel v d f = some (some e, d', f') →
      Edge g e.2 e.1 ∧ Reach g e.1 e.2 := by
  intro fuel
  induction fuel with
  | zero => intro v d f e d' f' _ h; simp [dfs_visit] at h
  | succ fuel ih =>
    intro v d f e d' f' hd h
    rw [dfs_visit] at h
    cases hc : dfs_children (dfs_visit g fuel) (childrenOf g v) v (insertS d v) f with
    | none => rw [hc] at h; simp at h
    | some r =>
      obtain ⟨e0, d2, f2⟩ := r
      cases e0 with
      | none => rw [hc] at h; simp at h
      | some e1 =>
        rw [hc] at h
        simp only [Option.some.injEq, Prod.mk.injEq] at h
        obtain ⟨he, _, _⟩ := h
        subst he
        have hd1 : ∀ x ∈ insertS d v, Reach g x v := by
          intro x hx
          rcases mem_insertS.mp hx with hx | hx
          · exact hx ▸ Relation.ReflTransGen.refl
          · exact hd x hx
        exact dfs_children_sound
          (fun c d f d' f' => dfs_visit_none_disc g fuel c d f d' f')
          (fun c d f e d' f' => ih c d f e d' f')
          (childrenOf g v) v (insertS d v) f e1 d2 f2 hd1 (fun c hc => hc) hc

/-- Fuel sufficiency across the children loop. -/
theorem dfs_children_suff {g : Graph} {step : V → List V → List V → Option DfsRes}
    {B : Nat}
    (hstepd : ∀ c d f d' f', c ∉ d → step c d f = some (none, d', f') → d' = d)
    (hsuff : ∀ c d f, c ∈ vertsList g → c ∉ d → freeCount g d < B → step c d f ≠ none) :
    ∀ (cs : List V) (vtx : V) (d f : List V),
      (∀ c ∈ cs, c ∈ vertsList g) → freeCount g d < B →
      dfs_children step cs vtx d f ≠ none := by
  intro cs
  induction cs with
  | nil => intro vtx d f _ _ h; simp [dfs_children] at h
  | cons child rest ih =>
    intro vtx d f hcs hfc h
    rw [dfs_children] at h
    by_cases h1 : child ∈ d
    · simp [h1] at h
    · rw [if_neg h1] at h
      by_cases h2 : child ∈ f
      · rw [if_pos h2] at h
        exact ih vtx d f (fun c hc => hcs c (List.mem_cons_of_mem _ hc)) hfc h
      · rw [if_neg h2] at h
        cases hs : step child d f with
        | none =>
          exact hsuff child d f (hcs child (List.mem_cons_self _ _)) h1 hfc hs
        | some r =>
          obtain ⟨e0, d2, f2⟩ := r
          cases e0 with
          | some e1 => rw [hs] at h; simp at h
          | none =>
            rw [hs] at h
            simp only at h
            have hd2 : d2 = d := hstepd child d f d2 f2 h1 hs
            rw [hd2] at h
            exact ih vtx d f2 (fun c hc => hcs c (List.mem_cons_of_mem _ hc)) hfc h

/-- Fuel sufficiency of `dfs_visit`: with more fuel than free vertices the
fuel-exhaustion branch is unreachable. -/
theorem dfs_visit_suff (g : Graph) :
    ∀ (fuel : Nat) (v : V) (d f : List V),
      v ∈ vertsList g → v ∉ d → freeCount g d < fuel →
      dfs_visit g fuel v d f ≠ none := by
  intro fuel
  induction fuel with
  | zero => intro v d f _ _ hfc; omega
  | succ fuel ih =>
    intro v d f hv hvd hfc h
    rw [dfs_visit] at h
    cases hc : dfs_children (dfs_visit g fuel) (childrenOf g v) v (insertS d v) f with
    | none =>
      have hfc1 : freeCount g (v :: d) < fuel := by
        have h1 := freeCount_insert_lt hv hvd
        omega
      have hcs : ∀ c ∈ childrenOf g v, c ∈ vertsList g := fun c hc =>
        mem_vertsList (childrenOf_mem_vertsRaw hc)
      rw [insertS_of_not_mem hvd] at hc
      exact dfs_children_suff
        (fun c d f d' f' => dfs_visit_none_disc g fuel c d f d' f')
        (fun c d f hc1 hc2 hc3 => ih c d f hc1 hc2 hc3)
        (childrenOf g v) v (v :: d) f hcs hfc1 hc
    | some r =>
      obtain ⟨e0, d2, f2⟩ := r
      cases e0 with
      | some e1 => rw [hc] at h; simp at h
      | none => rw [hc] at h; simp at h


theorem freeCount_nil (g : Graph) : freeCount g [] = (vertsList g).length := by
  simp [freeCount]

/-- Soundness of the root loop: a back edge returned by `find_back_edge_go`
witnesses a cycle. -/
theorem find_back_edge_go_sound (g : Graph) :
    ∀ (roots : List V) (f : List V) (e : V × V),
      find_back_edge_go g roots [] f = some e →
      Edge g e.2 e.1 ∧ Reach g e.1 e.2 := by
  intro roots
  induction roots with
  | nil => intro f e h; simp [find_back_edge_go] at h
  | cons v rest ih =>
    intro f e h
    rw [find_back_edge_go] at h
    rw [if_neg (by simp)] at h
    cases hd : dfs_visit g (dfsFuel g) v [] f with
    | none => rw [hd] at h; simp at h
    | some r =>
      obtain ⟨e0, d2, f2⟩ := r
      cases e0 with
      | some e1 =>
        rw [hd] at h
        simp only [Option.some.injEq] at h
        subst h
        exact dfs_visit_sound g (dfsFuel g) v [] f e1 d2 f2 (by simp) hd
      | none =>
        rw [hd] at h
        simp only at h
        have hd2 : d2 = [] := dfs_visit_none_disc g (dfsFuel g) v [] f d2 f2 (by simp) hd
        rw [hd2] at h
        exact ih f2 e h

/-- Completeness of the root loop: if it returns `none`, all roots end up in
a closed, cycle-free finished set. -/
theorem find_back_edge_go_none_good (g : Graph) :
    ∀ (roots : List V) (f : List V),
      (∀ v ∈ roots, v ∈ vertsList g) → GoodFin g f →
      find_back_edge_go g roots [] f = none →
      ∃ F, GoodFin g F ∧ (∀ x ∈ f, x ∈ F) ∧ (∀ v ∈ roots, v ∈ F) := by
  intro roots
  induction roots with
  | nil =>
    intro f _ hgood _
    exact ⟨f, hgood, fun x hx => hx, by simp⟩
  | cons v rest ih =>
    intro f hroots hgood h
    rw [find_back_edge_go] at h
    rw [if_neg (by simp)] at h
    cases hd : dfs_visit g (dfsFuel g) v [] f with
    | none =>
      exfalso
      refine dfs_visit_suff g (dfsFuel g) v [] f
        (hroots v (List.mem_cons_self _ _)) (by simp) ?_ hd
      rw [freeCount_nil]
      simp [dfsFuel]
    | some r =>
      obtain ⟨e0, d2, f2⟩ := r
      cases e0 with
      | some e1 => rw [hd] at h; simp at h
      | none =>
        rw [hd] at h
        simp only at h
        have hd2 : d2 = [] := dfs_visit_none_disc g (dfsFuel g) v [] f d2 f2 (by simp) hd
        obtain ⟨hg2, hmono2, hv2⟩ :=
          dfs_visit_none_good g (dfsFuel g) v [] f d2 f2 (by simp) hgood hd
        rw [hd2] at h
        obtain ⟨F, hgF, hmono, hrest⟩ :=
          ih f2 (fun u hu => hroots u (List.mem_cons_of_mem _ hu)) hg2 h
        refine ⟨F, hgF, fun x hx => hmono x (hmono2 x hx), fun u hu => ?_⟩
        rcases List.mem_cons.mp hu with hu | hu
        · exact hu ▸ hmono v hv2
        · exact hrest u hu

/-- A back edge returned by `find_back_edge` witnesses a cycle. -/
theorem find_back_edge_sound {g : Graph} {e : V × V}
    (h : find_back_edge g = some e) : Edge g e.2 e.1 ∧ Reach g e.1 e.2 :=
  find_back_edge_go_sound g (g.map Prod.fst) [] e h

/-- If the graph is acyclic, `find_back_edge` returns `none`. -/
theorem find_back_edge_none_of_acyclic {g : Graph} (h : ¬ HasCycle g) :
    find_back_edge g = none := by
  cases he : find_back_edge g with
  | none => rfl
  | some e =>
    exfalso
    obtain ⟨h1, h2⟩ := find_back_edge_sound he
    exact h ⟨e.2, e.1, h1, h2⟩

/-- Completeness: if the graph has a cycle, `find_back_edge` finds a back
edge. -/
theorem find_back_edge_isSome_of_hasCycle {g : Graph} (h : HasCycle g) :
    ∃ e, find_back_edge g = some e := by
  cases he : find_back_edge g with
  | some e => exact ⟨e, rfl⟩
  | none =>
    exfalso
    obtain ⟨F, ⟨_, hcf⟩, _, hkeys⟩ :=
      find_back_edge_go_none_good g (g.map Prod.fst) []
        (fun v hv => mem_vertsList (key_mem_vertsRaw hv)) (goodFin_nil g) he
    obtain ⟨u, w, huw, hwu⟩ := h
    exact hcf u (hkeys u (edge_mem_keys huw)) ⟨w, huw, hwu⟩


/-! ### Predecessor maps and path reconstruction -/

theorem lookupPred_append (l1 l2 : List (V × V)) (x : V) :
    lookupPred (l1 ++ l2) x =
      match lookupPred l1 x with
      | some p => some p
      | none => lookupPred l2 x := by
  induction l1 with
  | nil => simp [lookupPred]
  | cons e rest ih =>
    obtain ⟨c, p⟩ := e
    by_cases h : c = x
    · simp [lookupPred, h]
    · simp [lookupPred, h, ih]

theorem lookupPred_none_of_not_mem {l : List (V × V)} {x : V}
    (h : x ∉ l.map Prod.fst) : lookupPred l x = none := by
  induction l with
  | nil => rfl
  | cons e rest ih =>
    obtain ⟨c, p⟩ := e
    rw [List.map_cons] at h
    have hcx : c ≠ x := fun hc => h (List.mem_cons.mpr (Or.inl hc.symm)) 
    simp only [lookupPred, if_neg hcx]
    exact ih (fun hx => h (List.mem_cons_of_mem _ hx))

theorem lookupPred_mem {l : List (V × V)} {x p : V}
    (h : lookupPred l x = some p) : (x, p) ∈ l := by
  induction l with
  | nil => simp [lookupPred] at h
  | cons e rest ih =>
    obtain ⟨c, q⟩ := e
    by_cases hc : c = x
    · subst hc
      simp [lookupPred] at h
      simp [h]
    · simp only [lookupPred, if_neg hc] at h
      exact List.mem_cons_of_mem _ (ih h)

theorem WFP_keys {s : V} : ∀ {preds K}, WFP s preds K → preds.map Prod.fst = K := by
  intro preds K h
  induction h with
  | nil => rfl
  | snoc _ _ _ _ ih => simp [ih]

theorem crawlsTo_head {preds : List (V × V)} {x : V} {t : List V}
    (h : CrawlsTo preds x t) : ∃ t0, t = x :: t0 := by
  cases h with
  | stop _ => exact ⟨[], rfl⟩
  | step _ _ => exact ⟨_, rfl⟩

/-- The fueled crawl loop computes the crawl chain (minus its head, which is
already in the accumulator) whenever the fuel covers the chain length. -/
theorem crawl_go_eq {preds : List (V × V)} {x : V} {t : List V}
    (h : CrawlsTo preds x t) :
    ∀ (fuel : Nat) (acc : List V), t.length ≤ fuel + 1 →
      crawl_go fuel preds x acc = acc ++ t.tail := by
  induction h with
  | stop hx =>
    intro fuel acc _
    cases fuel with
    | zero => simp [crawl_go]
    | succ fuel => simp [crawl_go, hx]
  | step hx hp ih =>
    intro fuel acc hlen
    obtain ⟨t0, ht0⟩ := crawlsTo_head hp
    cases fuel with
    | zero =>
      exfalso
      subst ht0
      simp at hlen
    | succ fuel =>
      simp only [crawl_go, hx]
      rw [ih fuel (acc ++ [_]) (by subst ht0; simp at hlen ⊢; omega)]
      subst ht0
      simp

/-- Appending a fresh entry does not disturb crawl chains that avoid its key. -/
theorem crawlsTo_append {preds : List (V × V)} {c p x : V} {t : List V}
    (h : CrawlsTo preds x t) (hfresh : ∀ y ∈ t, y ≠ c) :
    CrawlsTo (preds ++ [(c, p)]) x t := by
  induction h with
  | stop hx =>
    rename_i x0
    refine CrawlsTo.stop ?_
    have hcx : ¬ (c = x0) := fun hc => hfresh x0 (by simp) hc.symm
    simp only [lookupPred_append, hx]
    simp [lookupPred, hcx]
  | step hx hp ih =>
    refine CrawlsTo.step ?_ (ih (fun y hy => hfresh y (List.mem_cons_of_mem _ hy)))
    simp only [lookupPred_append, hx]

/-- Every vertex recorded by a well-formed predecessor map has a duplicate-free
crawl chain leading back to the start, following predecessor entries. -/
theorem WFP_chain_exists {s : V} :
    ∀ {preds K}, WFP s preds K → ∀ x, x = s ∨ x ∈ K →
      ∃ t, CrawlsTo preds x t ∧ t.head? = some x ∧ t.getLast? = some s ∧
        t.Nodup ∧ (∀ y ∈ t, y = s ∨ y ∈ K) ∧
        List.Chain' (fun y z => lookupPred preds y = some z) t := by
  intro preds K h
  induction h with
  | nil =>
    intro x hx
    rcases hx with hx | hx
    · subst hx
      exact ⟨[x], CrawlsTo.stop rfl, rfl, rfl, by simp, by simp, by simp⟩
    · simp at hx
  | snoc hw hp hcs hcK ih =>
    rename_i preds0 K0 c p
    have upgrade :
        ∀ x, x = s ∨ x ∈ K0 →
          ∃ t, CrawlsTo (preds0 ++ [(c, p)]) x t ∧ t.head? = some x ∧
            t.getLast? = some s ∧ t.Nodup ∧ (∀ y ∈ t, y = s ∨ y ∈ K0) ∧
            List.Chain' (fun y z => lookupPred (preds0 ++ [(c, p)]) y = some z) t := by
      intro x hx
      obtain ⟨t, hct, hhead, hlast, hnd, hmem, hch⟩ := ih x hx
      have hfresh : ∀ y ∈ t, y ≠ c := by
        intro y hy hc
        rcases hmem y hy with h1 | h1
        · exact hcs (hc.symm.trans h1)
        · exact hcK (hc ▸ h1)
      refine ⟨t, crawlsTo_append hct hfresh, hhead, hlast, hnd, hmem, ?_⟩
      refine hch.imp ?_
      intro a b hab
      simp only [lookupPred_append, hab]
    intro x hx
    rcases hx with hx | hx
    · obtain ⟨t, hct, hhead, hlast, hnd, hmem, hch⟩ := upgrade x (Or.inl hx)
      exact ⟨t, hct, hhead, hlast, hnd,
        fun y hy => (hmem y hy).imp id (List.mem_append_left _), hch⟩
    · rw [List.mem_append] at hx
      rcases hx with hx | hx
      · obtain ⟨t, hct, hhead, hlast, hnd, hmem, hch⟩ := upgrade x (Or.inr hx)
        exact ⟨t, hct, hhead, hlast, hnd,
          fun y hy => (hmem y hy).imp id (List.mem_append_left _), hch⟩
      · simp at hx
        subst hx
        obtain ⟨t, hct, hhead, hlast, hnd, hmem, hch⟩ := upgrade p hp
        have hlookc : lookupPred (preds0 ++ [(x, p)]) x = some p := by
          have hnone : lookupPred preds0 x = none :=
            lookupPred_none_of_not_mem (by rw [WFP_keys hw]; exact hcK)
          simp only [lookupPred_append, hnone]
          simp [lookupPred]
        have hfresh : ∀ y ∈ t, y ≠ x := by
          intro y hy hc
          rcases hmem y hy with h1 | h1
          · exact hcs (hc.symm.trans h1)
          · exact hcK (hc ▸ h1)
        obtain ⟨t0, ht0⟩ := crawlsTo_head hct
        subst ht0
        refine ⟨x :: p :: t0, CrawlsTo.step hlookc hct, rfl, ?_, ?_, ?_, ?_⟩
        · rw [List.getLast?_cons_cons]
          exact hlast
        · exact List.nodup_cons.mpr ⟨fun hxy => (hfresh x hxy) rfl, hnd⟩
        · intro y hy
          rcases List.mem_cons.mp hy with h1 | h1
          · exact Or.inr (h1 ▸ List.mem_append_right _ (by simp))
          · rcases hmem y h1 with h2 | h2
            · exact Or.inl h2
            · exact Or.inr (List.mem_append_left _ h2)
        · exact List.Chain'.cons hlookc hch


/-- A duplicate-free list over `s :: K` has at most `K.length + 1` elements. -/
theorem chain_length_le {t : List V} {s : V} {K : List V} (hnd : t.Nodup)
    (hsub : ∀ y ∈ t, y = s ∨ y ∈ K) : t.length ≤ K.length + 1 := by
  have h1 : t.length = t.toFinset.card := (List.toFinset_card_of_nodup hnd).symm
  have h2 : t.toFinset ⊆ (s :: K).toFinset := by
    intro y hy
    rw [List.mem_toFinset] at hy
    rw [List.mem_toFinset]
    rcases hsub y hy with h | h
    · exact h ▸ List.mem_cons_self _ _
    · exact List.mem_cons_of_mem _ h
  calc t.length = t.toFinset.card := h1
    _ ≤ (s :: K).toFinset.card := Finset.card_le_card h2
    _ ≤ (s :: K).length := List.toFinset_card_le _
    _ = K.length + 1 := by simp

/-- The reconstruction walk produces exactly the crawl chain, reversed and
closed with the back-edge child. -/
theorem reconstruct_eq {c a : V} {P : List (V × V)} {t : List V}
    (hct : CrawlsTo P a t) (hhead : t.head? = some a)
    (hlen : t.length ≤ P.length + 2) :
    reconstruct_cycle_path c a P = t.reverse ++ [c] := by
  unfold reconstruct_cycle_path
  rw [crawl_go_eq hct (P.length + 1) [a] (by omega)]
  obtain ⟨t0, ht0⟩ := crawlsTo_head hct
  subst ht0
  simp

/-! ### BFS loop invariants -/

/-- Fuel measure across the inner scan: each pushed child shrinks the free
vertex count, paying for the queue growth. -/
theorem bfs_scan_measure (g : Graph) (goal v : V) :
    ∀ (cs q vis : List V) (preds : List (V × V))
      (q' vis' : List V) (preds' : List (V × V)) (found : Bool),
      (∀ c ∈ cs, c ∈ vertsList g) →
      bfs_scan goal v cs q vis preds = (q', vis', preds', found) →
      q'.length + 2 * freeCount g vis' ≤ q.length + 2 * freeCount g vis := by
  intro cs
  induction cs with
  | nil =>
    intro q vis preds q' vis' preds' found _ h
    rw [bfs_scan] at h
    simp only [Prod.mk.injEq] at h
    obtain ⟨hq, hv, _, _⟩ := h
    subst hq
    subst hv
    omega
  | cons child rest ih =>
    intro q vis preds q' vis' preds' found hcs h
    rw [bfs_scan] at h
    by_cases h1 : child ∈ vis
    · rw [if_pos h1] at h
      exact ih q vis preds q' vis' preds' found
        (fun c hc => hcs c (List.mem_cons_of_mem _ hc)) h
    · rw [if_neg h1] at h
      have hlt : freeCount g (child :: vis) < freeCount g vis :=
        freeCount_insert_lt (hcs child (List.mem_cons_self _ _)) h1
      by_cases h2 : child = goal
      · rw [if_pos h2] at h
        simp only [Prod.mk.injEq] at h
        obtain ⟨hq, hv, _, _⟩ := h
        subst hq
        subst hv
        simp only [List.length_append, List.length_cons, List.length_nil]
        omega
      · rw [if_neg h2] at h
        have := ih (q ++ [child]) (child :: vis) (preds ++ [(child, v)])
          q' vis' preds' found (fun c hc => hcs c (List.mem_cons_of_mem _ hc)) h
        simp only [List.length_append, List.length_cons, List.length_nil] at this
        omega

/-- Behavioural specification of the inner scan: it pushes some fresh subset
`ps` of the children, in order, onto queue, visited set and predecessor map. -/
theorem bfs_scan_spec (goal v : V) :
    ∀ (cs q vis : List V) (preds : List (V × V))
      (q' vis' : List V) (preds' : List (V × V)) (found : Bool),
      bfs_scan goal v cs q vis preds = (q', vis', preds', found) →
      ∃ ps : List V, q' = q ++ ps ∧
        (∀ x, x ∈ vis' ↔ x ∈ ps ∨ x ∈ vis) ∧
        (∀ x ∈ ps, x ∉ vis ∧ x ∈ cs) ∧
        (found = false → (∀ c ∈ cs, c ∈ vis') ∧ goal ∉ ps) ∧
        (found = true → goal ∈ ps) := by
  intro cs
  induction cs with
  | nil =>
    intro q vis preds q' vis' preds' found h
    rw [bfs_scan] at h
    simp only [Prod.mk.injEq] at h
    obtain ⟨hq, hv, _, hf⟩ := h
    subst hq
    subst hv
    refine ⟨[], by simp, by simp, by simp, fun _ => ⟨by simp, by simp⟩, fun hf1 => ?_⟩
    rw [← hf] at hf1
    exact absurd hf1 (by simp)
  | cons child rest ih =>
    intro q vis preds q' vis' preds' found h
    rw [bfs_scan] at h
    by_cases h1 : child ∈ vis
    · rw [if_pos h1] at h
      obtain ⟨ps, hq, hvis, hps, hfalse, htrue⟩ := ih q vis preds q' vis' preds' found h
      refine ⟨ps, hq, hvis, ?_, ?_, htrue⟩
      · exact fun x hx => ⟨(hps x hx).1, List.mem_cons_of_mem _ (hps x hx).2⟩
      · intro hf
        obtain ⟨hall, hgoal⟩ := hfalse hf
        refine ⟨?_, hgoal⟩
        intro c hc
        rcases List.mem_cons.mp hc with hc | hc
        · exact hc ▸ (hvis child).mpr (Or.inr h1)
        · exact hall c hc
    · rw [if_neg h1] at h
      by_cases h2 : child = goal
      · rw [if_pos h2] at h
        simp only [Prod.mk.injEq] at h
        obtain ⟨hq, hv, _, hf⟩ := h
        subst hq
        subst hv
        refine ⟨[child], rfl, by simp [List.mem_cons], ?_, ?_, ?_⟩
        · intro x hx
          rw [List.mem_singleton] at hx
          exact ⟨hx ▸ h1, hx ▸ List.mem_cons_self _ _⟩
        · intro hf1
          rw [← hf] at hf1
          exact absurd hf1 (by simp)
        · intro _
          exact h2 ▸ List.mem_singleton.mpr rfl
      · rw [if_neg h2] at h
        obtain ⟨ps, hq, hvis, hps, hfalse, htrue⟩ :=
          ih (q ++ [child]) (child :: vis) (preds ++ [(child, v)]) q' vis' preds' found h
        refine ⟨child :: ps, by rw [hq]; simp, ?_, ?_, ?_, ?_⟩
        · intro x
          rw [hvis x]
          simp [List.mem_cons]
          tauto
        · intro x hx
          rcases List.mem_cons.mp hx with hx | hx
          · exact ⟨hx ▸ h1, hx ▸ List.mem_cons_self _ _⟩
          · obtain ⟨hnv, hr⟩ := hps x hx
            exact ⟨fun hv2 => hnv (List.mem_cons_of_mem _ hv2),
              List.mem_cons_of_mem _ hr⟩
        · intro hf
          obtain ⟨hall, hgoal⟩ := hfalse hf
          refine ⟨?_, ?_⟩
          · intro c hc
            rcases List.mem_cons.mp hc with hc | hc
            · exact hc ▸ (hvis child).mpr (Or.inr (List.mem_cons_self _ _))
            · exact hall c hc
          · intro hg
            rcases List.mem_cons.mp hg with hg | hg
            · exact h2 hg.symm
            · exact hgoal hg
        · intro hf
          exact List.mem_cons_of_mem _ (htrue hf)

/-- The inner scan preserves well-formedness of the predecessor map and its
synchronisation with the visited set. -/
theorem bfs_scan_wfp (g : Graph) (goal s v : V) :
    ∀ (cs q vis : List V) (preds : List (V × V)) (K : List V)
      (q' vis' : List V) (preds' : List (V × V)) (found : Bool),
      WFP s preds K → (∀ x, x ∈ vis ↔ x = s ∨ x ∈ K) → v ∈ vis →
      (∀ c ∈ cs, Edge g v c) → (∀ e ∈ preds, Edge g e.2 e.1) →
      bfs_scan goal v cs q vis preds = (q', vis', preds', found) →
      ∃ K', WFP s preds' K' ∧ (∀ x, x ∈ vis' ↔ x = s ∨ x ∈ K') ∧
        (∀ e ∈ preds', Edge g e.2 e.1) := by
  intro cs
  induction cs with
  | nil =>
    intro q vis preds K q' vis' preds' found hwfp hsync hv _ hedges h
    rw [bfs_scan] at h
    simp only [Prod.mk.injEq] at h
    obtain ⟨_, hvv, hp, _⟩ := h
    subst hvv
    subst hp
    exact ⟨K, hwfp, hsync, hedges⟩
  | cons child rest ih =>
    intro q vis preds K q' vis' preds' found hwfp hsync hv hcs hedges h
    rw [bfs_scan] at h
    by_cases h1 : child ∈ vis
    · rw [if_pos h1] at h
      exact ih q vis preds K q' vis' preds' found hwfp hsync hv
        (fun c hc => hcs c (List.mem_cons_of_mem _ hc)) hedges h
    · rw [if_neg h1] at h
      have hchild : child ≠ s ∧ child ∉ K := by
        constructor
        · intro hc
          exact h1 ((hsync child).mpr (Or.inl hc))
        · intro hc
          exact h1 ((hsync child).mpr (Or.inr hc))
      have hwfp1 : WFP s (preds ++ [(child, v)]) (K ++ [child]) :=
        WFP.snoc hwfp ((hsync v).mp hv) hchild.1 hchild.2
      have hsync1 : ∀ x, x ∈ child :: vis ↔ x = s ∨ x ∈ K ++ [child] := by
        intro x
        rw [List.mem_cons, hsync x, List.mem_append, List.mem_singleton]
        tauto
      have hedges1 : ∀ e ∈ preds ++ [(child, v)], Edge g e.2 e.1 := by
        intro e he
        rcases List.mem_append.mp he with he | he
        · exact hedges e he
        · rw [List.mem_singleton] at he
          subst he
          exact hcs child (List.mem_cons_self _ _)
      by_cases h2 : child = goal
      · rw [if_pos h2] at h
        simp only [Prod.mk.injEq] at h
        obtain ⟨_, hvv, hp, _⟩ := h
        subst hvv
        subst hp
        exact ⟨K ++ [child], hwfp1, hsync1, hedges1⟩
      · rw [if_neg h2] at h
        exact ih (q ++ [child]) (child :: vis) (preds ++ [(child, v)]) (K ++ [child])
          q' vis' preds' found hwfp1 hsync1 (List.mem_cons_of_mem _ hv)
          (fun c hc => hcs c (List.mem_cons_of_mem _ hc)) hedges1 h


/-- Fuel sufficiency for the BFS loop. -/
theorem bfs_go_suff (g : Graph) (goal : V) :
    ∀ (fuel : Nat) (q vis : List V) (preds : List (V × V)),
      q.length + 2 * freeCount g vis < fuel →
      bfs_go g goal fuel q vis preds ≠ none := by
  intro fuel
  induction fuel with
  | zero => intro q vis preds hm; omega
  | succ fuel ih =>
    intro q vis preds hm h
    cases q with
    | nil => simp [bfs_go] at h
    | cons v qrest =>
      rw [bfs_go] at h
      by_cases hvg : v = goal
      · rw [if_pos hvg] at h; simp at h
      · rw [if_neg hvg] at h
        cases hscan : bfs_scan goal v (childrenOf g v) qrest vis preds with
        | mk q' r =>
          obtain ⟨vis', preds', found⟩ := r
          rw [hscan] at h
          simp only at h
          cases found with
          | true => simp at h
          | false =>
            simp only [if_neg (by simp : ¬ (false = true))] at h
            have hmeasure := bfs_scan_measure g goal v (childrenOf g v) qrest vis preds
              q' vis' preds' false
              (fun c hc => mem_vertsList (childrenOf_mem_vertsRaw hc)) hscan
            refine ih q' vis' preds' ?_ h
            simp only [List.length_cons] at hm
            omega

/-- If the BFS loop exhausts its queue, nothing visited reaches the goal. -/
theorem bfs_go_none (g : Graph) (goal : V) :
    ∀ (fuel : Nat) (q vis : List V) (preds : List (V × V)),
      (∀ x ∈ vis, x ∉ q → ∀ w, Edge g x w → w ∈ vis) →
      (∀ x ∈ q, x ∈ vis) → goal ∉ vis →
      bfs_go g goal fuel q vis preds = some none →
      ∀ x ∈ vis, ¬ Reach g x goal := by
  intro fuel
  induction fuel with
  | zero => intro q vis preds _ _ _ h; simp [bfs_go] at h
  | succ fuel ih =>
    intro q vis preds hclosed hq hgoal h
    cases q with
    | nil =>
      intro x hx hr
      have hcl : Closed g vis := fun u hu w hw => hclosed u hu (by simp) w hw
      exact hgoal (closed_reach hcl hx hr)
    | cons v qrest =>
      rw [bfs_go] at h
      by_cases hvg : v = goal
      · rw [if_pos hvg] at h; simp at h
      · rw [if_neg hvg] at h
        cases hscan : bfs_scan goal v (childrenOf g v) qrest vis preds with
        | mk q' r =>
          obtain ⟨vis', preds', found⟩ := r
          rw [hscan] at h
          simp only at h
          cases found with
          | true => simp at h
          | false =>
            simp only [if_neg (by simp : ¬ (false = true))] at h
            obtain ⟨ps, hqps, hvis, hps, hfalse, _⟩ :=
              bfs_scan_spec goal v (childrenOf g v) qrest vis preds
                q' vis' preds' false hscan
            obtain ⟨hall, hgps⟩ := hfalse rfl
            have hmono : ∀ x ∈ vis, x ∈ vis' := fun x hx => (hvis x).mpr (Or.inr hx)
            have hclosed' : ∀ x ∈ vis', x ∉ q' → ∀ w, Edge g x w → w ∈ vis' := by
              intro x hx hxq w hw
              rcases (hvis x).mp hx with hxp | hxv
              · exact absurd (hqps ▸ List.mem_append_right _ hxp) hxq
              · by_cases hxv2 : x = v
                · exact hall w (hxv2 ▸ hw)
                · have hxq0 : x ∉ v :: qrest := by
                    intro hc
                    rcases List.mem_cons.mp hc with hc | hc
                    · exact hxv2 hc
                    · exact hxq (hqps ▸ List.mem_append_left _ hc)
                  exact hmono w (hclosed x hxv hxq0 w hw)
            have hq' : ∀ x ∈ q', x ∈ vis' := by
              intro x hx
              rw [hqps] at hx
              rcases List.mem_append.mp hx with hx | hx
              · exact hmono x (hq x (List.mem_cons_of_mem _ hx))
              · exact (hvis x).mpr (Or.inl hx)
            have hgoal' : goal ∉ vis' := by
              intro hc
              rcases (hvis goal).mp hc with hc | hc
              · exact hgps hc
              · exact hgoal hc
            intro x hx
            exact ih q' vis' preds' hclosed' hq' hgoal' h x (hmono x hx)

/-- When the BFS loop returns a predecessor map, the map is well formed, its
entries are edges, and the goal is recorded (or is the start itself). -/
theorem bfs_go_some (g : Graph) (s goal : V) :
    ∀ (fuel : Nat) (q vis : List V) (preds : List (V × V)) (K : List V)
      (P : List (V × V)),
      WFP s preds K → (∀ x, x ∈ vis ↔ x = s ∨ x ∈ K) → (∀ x ∈ q, x ∈ vis) →
      (∀ e ∈ preds, Edge g e.2 e.1) →
      bfs_go g goal fuel q vis preds = some (some P) →
      ∃ K', WFP s P K' ∧ (goal = s ∨ goal ∈ K') ∧ (∀ e ∈ P, Edge g e.2 e.1) := by
  intro fuel
  induction fuel with
  | zero => intro q vis preds K P _ _ _ _ h; simp [bfs_go] at h
  | succ fuel ih =>
    intro q vis preds K P hwfp hsync hq hedges h
    cases q with
    | nil => simp [bfs_go] at h
    | cons v qrest =>
      rw [bfs_go] at h
      by_cases hvg : v = goal
      · rw [if_pos hvg] at h
        simp only [Option.some.injEq] at h
        subst h
        exact ⟨K, hwfp, (hsync goal).mp (hvg ▸ hq v (List.mem_cons_self _ _)), hedges⟩
      · rw [if_neg hvg] at h
        cases hscan : bfs_scan goal v (childrenOf g v) qrest vis preds with
        | mk q' r =>
          obtain ⟨vis', preds', found⟩ := r
          rw [hscan] at h
          simp only at h
          obtain ⟨K', hwfp', hsync', hedges'⟩ :=
            bfs_scan_wfp g goal s v (childrenOf g v) qrest vis preds K
              q' vis' preds' found hwfp hsync (hq v (List.mem_cons_self _ _))
              (fun c hc => hc) hedges hscan
          obtain ⟨ps, hqps, hvis, hps, _, htrue⟩ :=
            bfs_scan_spec goal v (childrenOf g v) qrest vis preds
              q' vis' preds' found hscan
          cases found with
          | true =>
            rw [if_pos rfl] at h
            simp only [Option.some.injEq] at h
            subst h
            refine ⟨K', hwfp', ?_, hedges'⟩
            exact (hsync' goal).mp ((hvis goal).mpr (Or.inl (htrue rfl)))
          | false =>
            simp only [if_neg (by simp : ¬ (false = true))] at h
            have hq' : ∀ x ∈ q', x ∈ vis' := by
              intro x hx
              rw [hqps] at hx
              rcases List.mem_append.mp hx with hx | hx
              · exact (hvis x).mpr (Or.inr (hq x (List.mem_cons_of_mem _ hx)))
              · exact (hvis x).mpr (Or.inl hx)
            exact ih q' vis' preds' K' P hwfp' hsync' hq' hedges' h


/-- If the goal is reachable from the start, `find_shortest_path` returns a
well-formed predecessor map that records the goal. -/
theorem find_shortest_path_spec {g : Graph} {c a : V} (hr : Reach g c a) :
    ∃ P K, find_shortest_path g c a = some P ∧ WFP c P K ∧ (a = c ∨ a ∈ K) ∧
      (∀ e ∈ P, Edge g e.2 e.1) := by
  by_cases hca : a = c
  · subst hca
    refine ⟨[], [], ?_, WFP.nil, Or.inl rfl, by simp⟩
    unfold find_shortest_path
    have hfuel : bfsFuel g = 2 * (vertsList g).length + 1 + 1 := rfl
    rw [hfuel, bfs_go, if_pos rfl]
    rfl
  · cases hb : bfs_go g a (bfsFuel g) [c] [c] [] with
    | none =>
      exfalso
      refine bfs_go_suff g a (bfsFuel g) [c] [c] [] ?_ hb
      have h1 : freeCount g [c] ≤ freeCount g [] := freeCount_mono g [] c
      rw [freeCount_nil] at h1
      simp only [List.length_cons, List.length_nil, bfsFuel]
      omega
    | some r =>
      cases r with
      | none =>
        exfalso
        refine bfs_go_none g a (bfsFuel g) [c] [c] [] ?_ ?_ ?_ hb c (by simp) hr
        · intro x hx hxq w hw
          rw [List.mem_singleton] at hx
          subst hx
          exact absurd (List.mem_singleton.mpr rfl) hxq
        · simp
        · rw [List.mem_singleton]
          exact hca
      | some P =>
        obtain ⟨K, hwfp, hgoal, hedges⟩ := bfs_go_some g c a (bfsFuel g) [c] [c] [] [] P
          WFP.nil (by intro x; simp) (by simp) (by simp) hb
        refine ⟨P, K, ?_, hwfp, hgoal, hedges⟩
        unfold find_shortest_path
        rw [hb]
        rfl

/-- The `unwrap` in `find_cycle` cannot panic: a reported back edge implies
the BFS finds the ancestor. -/
theorem find_shortest_path_isSome_of_back_edge {g : Graph} {c a : V}
    (he : find_back_edge g = some (c, a)) :
    ∃ P, find_shortest_path g c a = some P := by
  obtain ⟨_, hr⟩ := find_back_edge_sound he
  obtain ⟨P, _, hsp, _, _, _⟩ := find_shortest_path_spec hr
  exact ⟨P, hsp⟩

/-- Full characterisation of `find_cycle` on a reported back edge `(c, a)`:
it returns the reversed crawl chain (a duplicate-free edge path from `c` to
`a`) closed with `c`. -/
theorem find_cycle_of_back_edge {g : Graph} {c a : V}
    (he : find_back_edge g = some (c, a)) :
    ∃ q : List V, find_cycle g = some (q ++ [c]) ∧ q.head? = some c ∧
      q.getLast? = some a ∧ q.Nodup ∧ List.Chain' (Edge g) q ∧ Edge g a c := by
  obtain ⟨hedge, hr⟩ := find_back_edge_sound he
  obtain ⟨P, K, hsp, hwfp, hgoal, hedges⟩ := find_shortest_path_spec hr
  obtain ⟨t, hct, hhead, hlast, hnd, hmem, hch⟩ := WFP_chain_exists hwfp a hgoal
  have hKP : P.length = K.length := by
    rw [← WFP_keys hwfp]
    simp
  have hlen : t.length ≤ P.length + 2 := by
    have := chain_length_le hnd hmem
    omega
  have hrec : reconstruct_cycle_path c a P = t.reverse ++ [c] :=
    reconstruct_eq hct hhead hlen
  refine ⟨t.reverse, ?_, ?_, ?_, ?_, ?_, hedge⟩
  · simp only [find_cycle, he, hsp]
    rw [hrec]
  · rw [List.head?_reverse]
    exact hlast
  · rw [List.getLast?_reverse]
    exact hhead
  · exact List.nodup_reverse.mpr hnd
  · have hch2 : List.Chain' (fun y z => Edge g z y) t := by
      refine hch.imp ?_
      intro y z hyz
      exact hedges (y, z) (lookupPred_mem hyz)
    exact List.chain'_reverse.mpr hch2

/-- C1: for every graph built by a sequence of `add_edge` calls whose
resulting edge set is acyclic, `find_cycle` returns `None`. -/
theorem C1_acyclic_find_cycle_none (es : List (V × V))
    (h : ¬ HasCycle (buildGraph es)) : find_cycle (buildGraph es) = none := by
  simp only [find_cycle, find_back_edge_none_of_acyclic h]

/-- C1 witness: the spec scenario `A→B, B→C, C→D, A→D` is acyclic and
`find_cycle` returns `None` on it. -/
theorem C1_acyclic_find_cycle_none_witness :
    ¬ HasCycle (buildGraph [("A", "B"), ("B", "C"), ("C", "D"), ("A", "D")]) ∧
      find_cycle (buildGraph [("A", "B"), ("B", "C"), ("C", "D"), ("A", "D")]) = none := by
  have hne : find_back_edge (buildGraph [("A", "B"), ("B", "C"), ("C", "D"), ("A", "D")])
      = none := by decide
  have hnc : ¬ HasCycle (buildGraph [("A", "B"), ("B", "C"), ("C", "D"), ("A", "D")]) := by
    intro hc
    obtain ⟨e, he⟩ := find_back_edge_isSome_of_hasCycle hc
    rw [hne] at he
    exact Option.noConfusion he
  exact ⟨hnc, C1_acyclic_find_cycle_none _ hnc⟩

/-- C2: for every graph built by `add_edge` calls whose edge set contains a
cycle, `find_cycle` returns some path, and that path is a valid cycle: its
first and last elements are equal and every consecutive pair is an edge. -/
theorem C2_cycle_found_valid (es : List (V × V))
    (h : HasCycle (buildGraph es)) :
    ∃ p, find_cycle (buildGraph es) = some p ∧ ValidCycle (buildGraph es) p := by
  obtain ⟨e, he⟩ := find_back_edge_isSome_of_hasCycle h
  obtain ⟨c, a⟩ := e
  obtain ⟨q, hfc, hhead, hlast, hnd, hch, hedge⟩ := find_cycle_of_back_edge he
  cases q with
  | nil => simp at hhead
  | cons x q0 =>
    have hx : x = c := by
      rw [List.head?_cons] at hhead
      exact Option.some.injEq .. ▸ hhead.symm ▸ rfl
    subst hx
    refine ⟨(x :: q0) ++ [x], hfc, ?_, ?_, ?_⟩
    · simp
    · rw [List.getLast?_concat]
      rfl
    · rw [List.chain'_append]
      refine ⟨hch, by simp, ?_⟩
      intro y hy z hz
      rw [List.head?_cons, Option.mem_def, Option.some.injEq] at hz
      rw [hlast, Option.mem_def, Option.some.injEq] at hy
      subst hy
      subst hz
      exact hedge
  
/-- C2 witness: the self-loop graph has a cycle and `find_cycle` returns a
valid cycle on it. -/
theorem C2_cycle_found_valid_witness :
    HasCycle (buildGraph [("A", "A")]) ∧
      ∃ p, find_cycle (buildGraph [("A", "A")]) = some p ∧
        ValidCycle (buildGraph [("A", "A")]) p := by
  have hc : HasCycle (buildGraph [("A", "A")]) :=
    ⟨"A", "A", by decide, Relation.ReflTransGen.refl⟩
  exact ⟨hc, C2_cycle_found_valid _ hc⟩

/-- C9: `add_edge` is idempotent: adding the same edge twice in succession
leaves the graph exactly as adding it once; edges form sets, not multisets. -/
theorem C9_add_edge_idem (g : Graph) (a b : V) :
    add_edge (add_edge g a b) a b = add_edge g a b :=
  add_edge_idem g a b

/-- C10: whenever `find_back_edge` reports `(c, a)` on a graph built by
`add_edge` calls, a path from `c` to `a` exists, so `find_shortest_path`
returns `Some` and the `unwrap` inside `find_cycle` cannot panic. -/
theorem C10_no_panic (es : List (V × V)) (c a : V)
    (h : find_back_edge (buildGraph es) = some (c, a)) :
    Reach (buildGraph es) c a ∧
      ∃ P, find_shortest_path (buildGraph es) c a = some P :=
  ⟨(find_back_edge_sound h).2, find_shortest_path_isSome_of_back_edge h⟩

/-- C10 witness: on the self-loop graph the back edge `("A", "A")` is found
and the BFS succeeds. -/
theorem C10_no_panic_witness :
    find_back_edge (buildGraph [("A", "A")]) = some ("A", "A") ∧
      (Reach (buildGraph [("A", "A")]) "A" "A" ∧
        ∃ P, find_shortest_path (buildGraph [("A", "A")]) "A" "A" = some P) := by
  have he : find_back_edge (buildGraph [("A", "A")]) = some ("A", "A") := by decide
  exact ⟨he, C10_no_panic [("A", "A")] "A" "A" he⟩


/-- C8 counterexample: this graph contains the self-edge `("A", "A")`, yet
`find_cycle` returns the two-cycle `["B", "C", "B"]` found first by the
traversal, not `["A", "A"]`. -/
theorem C8_counterexample :
    Edge (buildGraph [("B", "C"), ("C", "B"), ("A", "A")]) "A" "A" ∧
      find_cycle (buildGraph [("B", "C"), ("C", "B"), ("A", "A")])
        = some ["B", "C", "B"] ∧
      (["B", "C", "B"] : List V) ≠ ["A", "A"] := by
  refine ⟨by decide, by decide, by decide⟩

/-- C8 amended: for every graph built by `add_edge` calls containing a
self-edge `(A, A)`, if that self-edge is the only edge lying on any cycle,
`find_cycle` returns `[A, A]`. -/
theorem C8_self_loop (es : List (V × V)) (A : V)
    (hmem : Edge (buildGraph es) A A)
    (honly : ∀ v w, Edge (buildGraph es) v w → Reach (buildGraph es) w v →
      v = A ∧ w = A) :
    find_cycle (buildGraph es) = some [A, A] := by
  have hc : HasCycle (buildGraph es) := ⟨A, A, hmem, Relation.ReflTransGen.refl⟩
  obtain ⟨e, he⟩ := find_back_edge_isSome_of_hasCycle hc
  obtain ⟨c, a⟩ := e
  obtain ⟨hedge, hr⟩ := find_back_edge_sound he
  obtain ⟨ha, hcc⟩ := honly a c hedge hr
  rw [hcc, ha] at he
  have hsp : find_shortest_path (buildGraph es) A A = some [] := by
    unfold find_shortest_path
    have hfuel : bfsFuel (buildGraph es)
        = 2 * (vertsList (buildGraph es)).length + 1 + 1 := rfl
    rw [hfuel, bfs_go, if_pos rfl]
    rfl
  simp only [find_cycle, he, hsp]
  rfl

/-- C8 witness: on the one-edge graph `A→A` the hypotheses hold and
`find_cycle` returns `["A", "A"]`. -/
theorem C8_self_loop_witness :
    Edge (buildGraph [("A", "A")]) "A" "A" ∧
      find_cycle (buildGraph [("A", "A")]) = some ["A", "A"] := by
  have hg : buildGraph [("A", "A")] = [("A", ["A"])] := rfl
  have honly : ∀ v w, Edge (buildGraph [("A", "A")]) v w →
      Reach (buildGraph [("A", "A")]) w v → v = "A" ∧ w = "A" := by
    intro v w hvw _
    rw [hg] at hvw
    unfold Edge childrenOf lookupChildren at hvw
    by_cases hv : "A" = v
    · subst hv
      simp at hvw
      exact ⟨rfl, hvw⟩
    · rw [if_neg hv] at hvw
      simp [lookupChildren] at hvw
  have hmem : Edge (buildGraph [("A", "A")]) "A" "A" := by decide
  exact ⟨hmem, C8_self_loop [("A", "A")] "A" hmem honly⟩

/-- C7 counterexample: this edge set contains a back edge closing a path of
3 distinct vertices (the valid cycle `C→D→E→C`), but `find_cycle` returns
the 3-element path `["A", "B", "A"]`, not one of `3 + 1` elements. -/
theorem C7_counterexample :
    ValidCycle (buildGraph [("A", "B"), ("B", "A"), ("C", "D"), ("D", "E"), ("E", "C")])
        ["C", "D", "E", "C"] ∧
      (["C", "D", "E"] : List V).Nodup ∧
      find_cycle (buildGraph [("A", "B"), ("B", "A"), ("C", "D"), ("D", "E"), ("E", "C")])
        = some ["A", "B", "A"] ∧
      (["A", "B", "A"] : List V).length ≠ 3 + 1 := by
  refine ⟨by decide, by decide, by decide, by decide⟩


/-! ### BFS optimality: the reconstructed path is a shortest path -/

theorem reachN_zero {g : Graph} {a b : V} (h : ReachN g 0 a b) : a = b := by
  cases h
  rfl

theorem reachN_snoc {g : Graph} {n : Nat} {a b c : V}
    (h : ReachN g n a b) (he : Edge g b c) : ReachN g (n + 1) a c := by
  induction h with
  | refl => exact ReachN.head he (ReachN.refl _)
  | head h1 _ ih => exact ReachN.head h1 (ih he)

theorem reachN_succ_decompose {g : Graph} {n : Nat} :
    ∀ {s z : V}, ReachN g (n + 1) s z → ∃ p, ReachN g n s p ∧ Edge g p z := by
  induction n with
  | zero =>
    intro s z h
    cases h with
    | head h1 h2 =>
      have := reachN_zero h2
      subst this
      exact ⟨s, ReachN.refl _, h1⟩
  | succ n ih =>
    intro s z h
    cases h with
    | head h1 h2 =>
      obtain ⟨p, hp, hpz⟩ := ih h2
      exact ⟨p, ReachN.head h1 hp, hpz⟩

theorem reach_of_reachN {g : Graph} {n : Nat} {a b : V} (h : ReachN g n a b) :
    Reach g a b := by
  induction h with
  | refl => exact Relation.ReflTransGen.refl
  | head h1 _ ih => exact Relation.ReflTransGen.head h1 ih

theorem reachN_of_reach {g : Graph} {a b : V} (h : Reach g a b) :
    ∃ n, ReachN g n a b := by
  induction h with
  | refl => exact ⟨0, ReachN.refl _⟩
  | tail _ he ih =>
    obtain ⟨n, hn⟩ := ih
    exact ⟨n + 1, reachN_snoc hn he⟩

/-- An edge path expressed as a vertex list yields step-counted
reachability. -/
theorem chain_to_reachN {g : Graph} :
    ∀ (q : List V) {c a : V}, q.head? = some c → q.getLast? = some a →
      List.Chain' (Edge g) q → ReachN g (q.length - 1) c a := by
  intro q
  induction q with
  | nil => intro c a h; simp at h
  | cons x rest ih =>
    intro c a hh hl hch
    rw [List.head?_cons, Option.some.injEq] at hh
    subst hh
    cases rest with
    | nil =>
      simp at hl
      subst hl
      exact ReachN.refl _
    | cons y rest2 =>
      rw [List.chain'_cons] at hch
      rw [List.getLast?_cons_cons] at hl
      have := ih (c := y) (a := a) rfl hl hch.2
      simp only [List.length_cons, Nat.add_sub_cancel] at this ⊢
      exact ReachN.head hch.1 this

theorem crawlsTo_unique {preds : List (V × V)} {x : V} :
    ∀ {t t' : List V}, CrawlsTo preds x t → CrawlsTo preds x t' → t = t' := by
  intro t
  induction t generalizing x with
  | nil => intro t' h; cases h
  | cons y rest ih =>
    intro t' h h'
    cases h with
    | stop hx =>
      cases h' with
      | stop _ => rfl
      | step hx' _ => rw [hx] at hx'; exact Option.noConfusion hx'
    | step hx hp =>
      cases h' with
      | stop hx' => rw [hx] at hx'; exact Option.noConfusion hx'
      | step hx2 hp2 =>
        rw [hx] at hx2
        rw [Option.some.injEq] at hx2
        subst hx2
        rw [ih hp hp2]

theorem WD_functional {preds : List (V × V)} {x : V} {m m' : Nat}
    (h : WD preds x m) (h' : WD preds x m') : m = m' := by
  obtain ⟨t, ht, hlen⟩ := h
  obtain ⟨t', ht', hlen'⟩ := h'
  rw [crawlsTo_unique ht ht'] at hlen
  omega

theorem WFP_s_not_mem {s : V} : ∀ {preds K}, WFP s preds K → s ∉ K := by
  intro preds K h
  induction h with
  | nil => simp
  | snoc _ _ hcs _ ih =>
    rw [List.mem_append, List.mem_singleton]
    rintro (h1 | h1)
    · exact ih h1
    · exact hcs h1.symm

/-- The start vertex has walk distance zero. -/
theorem WD_start {s : V} {preds : List (V × V)} {K : List V} (h : WFP s preds K) :
    WD preds s 0 :=
  ⟨[s], CrawlsTo.stop (lookupPred_none_of_not_mem (by rw [WFP_keys h]; exact WFP_s_not_mem h)), rfl⟩

/-- Walk distances of recorded vertices are stable under appending a fresh
entry. -/
theorem WD_stable {s : V} {preds : List (V × V)} {K : List V} {x c p : V} {m : Nat}
    (hwfp : WFP s preds K) (hx : x = s ∨ x ∈ K) (hwd : WD preds x m)
    (hcs : c ≠ s) (hcK : c ∉ K) : WD (preds ++ [(c, p)]) x m := by
  obtain ⟨t, ht, hlen⟩ := hwd
  obtain ⟨t0, ht0, _, _, _, hmem, _⟩ := WFP_chain_exists hwfp x hx
  have heq : t = t0 := crawlsTo_unique ht ht0
  subst heq
  have hfresh : ∀ y ∈ t, y ≠ c := by
    intro y hy hc
    rcases hmem y hy with h1 | h1
    · exact hcs (hc.symm.trans h1)
    · exact hcK (hc ▸ h1)
  exact ⟨t, crawlsTo_append ht hfresh, hlen⟩

/-- A freshly pushed child is one step farther than its predecessor. -/
theorem WD_new_child {s : V} {preds : List (V × V)} {K : List V} {child v : V} {n : Nat}
    (hwfp : WFP s preds K) (hchs : child ≠ s) (hchK : child ∉ K)
    (hv : v = s ∨ v ∈ K) (hwd : WD preds v n) :
    WD (preds ++ [(child, v)]) child (n + 1) := by
  obtain ⟨t, ht, hlen⟩ := WD_stable hwfp hv hwd hchs hchK
  refine ⟨child :: t, CrawlsTo.step ?_ ht, by simp [hlen]⟩
  have hnone : lookupPred preds child = none :=
    lookupPred_none_of_not_mem (by rw [WFP_keys hwfp]; exact hchK)
  simp only [lookupPred_append, hnone]
  simp [lookupPred]


/-- Optimality invariants across the inner scan: walk distances of recorded
vertices are stable, and every newly visited vertex is exactly one level
deeper, with a minimal step count. -/
theorem bfs_scan_opt (g : Graph) (s goal v : V) (n : Nat) :
    ∀ (cs q vis : List V) (preds : List (V × V)) (K : List V)
      (q' vis' : List V) (preds' : List (V × V)) (found : Bool),
      WFP s preds K → (∀ x, x ∈ vis ↔ x = s ∨ x ∈ K) →
      (∀ c ∈ cs, Edge g v c) →
      (v = s ∨ v ∈ K) → WD preds v n → ReachN g n s v →
      (∀ z k, ReachN g k s z → k ≤ n → z ∈ vis) →
      (∀ x ∈ vis, ∃ m, WD preds x m ∧ ReachN g m s x ∧ ∀ k, ReachN g k s x → m ≤ k) →
      bfs_scan goal v cs q vis preds = (q', vis', preds', found) →
      ∃ K', WFP s preds' K' ∧ (∀ x, x ∈ vis' ↔ x = s ∨ x ∈ K') ∧
        (∀ x m, (x = s ∨ x ∈ K) → WD preds x m → WD preds' x m) ∧
        (∀ x ∈ vis', x ∉ vis → WD preds' x (n + 1)) ∧
        (∀ x ∈ vis', ∃ m, WD preds' x m ∧ ReachN g m s x ∧
          ∀ k, ReachN g k s x → m ≤ k) := by
  intro cs
  induction cs with
  | nil =>
    intro q vis preds K q' vis' preds' found hwfp hsync _ _ _ _ _ hB2 h
    rw [bfs_scan] at h
    simp only [Prod.mk.injEq] at h
    obtain ⟨_, hvv, hp, _⟩ := h
    subst hvv
    subst hp
    exact ⟨K, hwfp, hsync, fun x m _ hm => hm, fun x hx hnx => absurd hx hnx, hB2⟩
  | cons child rest ih =>
    intro q vis preds K q' vis' preds' found hwfp hsync hcs hvK hwdv hrv hB4 hB2 h
    rw [bfs_scan] at h
    by_cases h1 : child ∈ vis
    · rw [if_pos h1] at h
      exact ih q vis preds K q' vis' preds' found hwfp hsync
        (fun c hc => hcs c (List.mem_cons_of_mem _ hc)) hvK hwdv hrv hB4 hB2 h
    · rw [if_neg h1] at h
      have hchild : child ≠ s ∧ child ∉ K := by
        constructor
        · intro hc
          exact h1 ((hsync child).mpr (Or.inl hc))
        · intro hc
          exact h1 ((hsync child).mpr (Or.inr hc))
      have hwfp1 : WFP s (preds ++ [(child, v)]) (K ++ [child]) :=
        WFP.snoc hwfp hvK hchild.1 hchild.2
      have hsync1 : ∀ x, x ∈ child :: vis ↔ x = s ∨ x ∈ K ++ [child] := by
        intro x
        rw [List.mem_cons, hsync x, List.mem_append, List.mem_singleton]
        tauto
      have hstab1 : ∀ x m, (x = s ∨ x ∈ K) → WD preds x m →
          WD (preds ++ [(child, v)]) x m :=
        fun x m hx hm => WD_stable hwfp hx hm hchild.1 hchild.2
      have hwdc : WD (preds ++ [(child, v)]) child (n + 1) :=
        WD_new_child hwfp hchild.1 hchild.2 hvK hwdv
      have hrc : ReachN g (n + 1) s child :=
        reachN_snoc hrv (hcs child (List.mem_cons_self _ _))
      have hminc : ∀ k, ReachN g k s child → n + 1 ≤ k := by
        intro k hk
        by_contra hlt
        exact h1 (hB4 child k hk (by omega))
      have hB2₁ : ∀ x ∈ child :: vis, ∃ m, WD (preds ++ [(child, v)]) x m ∧
          ReachN g m s x ∧ ∀ k, ReachN g k s x → m ≤ k := by
        intro x hx
        rcases List.mem_cons.mp hx with hx | hx
        · subst hx
          exact ⟨n + 1, hwdc, hrc, hminc⟩
        · obtain ⟨m, hm, hr, hmin⟩ := hB2 x hx
          exact ⟨m, hstab1 x m ((hsync x).mp hx) hm, hr, hmin⟩
      by_cases h2 : child = goal
      · rw [if_pos h2] at h
        simp only [Prod.mk.injEq] at h
        obtain ⟨_, hvv, hp, _⟩ := h
        subst hvv
        subst hp
        refine ⟨K ++ [child], hwfp1, hsync1, hstab1, ?_, hB2₁⟩
        intro x hx hnx
        rcases List.mem_cons.mp hx with hx | hx
        · exact hx ▸ hwdc
        · exact absurd hx hnx
      · rw [if_neg h2] at h
        have hB4₁ : ∀ z k, ReachN g k s z → k ≤ n → z ∈ child :: vis :=
          fun z k hz hk => List.mem_cons_of_mem _ (hB4 z k hz hk)
        obtain ⟨K', hwfp', hsync', hstab', hnew', hB2'⟩ :=
          ih (q ++ [child]) (child :: vis) (preds ++ [(child, v)]) (K ++ [child])
            q' vis' preds' found hwfp1 hsync1
            (fun c hc => hcs c (List.mem_cons_of_mem _ hc))
            (hvK.imp id (List.mem_append_left _))
            (hstab1 v n hvK hwdv) hrv hB4₁ hB2₁ h
        refine ⟨K', hwfp', hsync', ?_, ?_, hB2'⟩
        · intro x m hx hm
          exact hstab' x m (hx.imp id (List.mem_append_left _)) (hstab1 x m hx hm)
        · intro x hx hnx
          by_cases hxc : x = child
          · subst hxc
            exact hstab' x (n + 1)
              (Or.inr (List.mem_append_right _ (List.mem_singleton.mpr rfl))) hwdc
          · refine hnew' x hx ?_
            intro hc
            rcases List.mem_cons.mp hc with hc | hc
            · exact hxc hc
            · exact hnx hc


/-- Optimality of the BFS loop: the walk distance of the returned goal is a
minimal step count from the start. -/
theorem bfs_go_opt (g : Graph) (s goal : V) :
    ∀ (fuel n : Nat) (A B vis : List V) (preds : List (V × V)) (K : List V)
      (P : List (V × V)),
      WFP s preds K → (∀ x, x ∈ vis ↔ x = s ∨ x ∈ K) →
      (∀ x ∈ A ++ B, x ∈ vis) →
      (∀ x ∈ A, WD preds x n) → (∀ x ∈ B, WD preds x (n + 1)) →
      (∀ x ∈ vis, ∃ m, WD preds x m ∧ ReachN g m s x ∧ ∀ k, ReachN g k s x → m ≤ k) →
      (∀ x ∈ vis, x ∉ A ++ B → ∀ w, Edge g x w → w ∈ vis) →
      (∀ z k, ReachN g k s z → k ≤ n → z ∈ vis) →
      bfs_go g goal fuel (A ++ B) vis preds = some (some P) →
      ∃ m, WD P goal m ∧ ReachN g m s goal ∧ ∀ k, ReachN g k s goal → m ≤ k := by
  intro fuel
  induction fuel with
  | zero => intro n A B vis preds K P _ _ _ _ _ _ _ _ h; simp [bfs_go] at h
  | succ fuel ih =>
    intro n A B vis preds K P hwfp hsync hqvis hA hB hB2 hB3 hB4 h
    obtain ⟨n₂, A₂, B₂, hq, hA₂, hB₂, hB4₂, hnil⟩ :
        ∃ n₂ A₂ B₂, A ++ B = A₂ ++ B₂ ∧ (∀ x ∈ A₂, WD preds x n₂) ∧
          (∀ x ∈ B₂, WD preds x (n₂ + 1)) ∧
          (∀ z k, ReachN g k s z → k ≤ n₂ → z ∈ vis) ∧
          (A₂ = [] → B₂ = []) := by
      cases A with
      | cons a0 A0 =>
        exact ⟨n, a0 :: A0, B, rfl, hA, hB, hB4, fun hc => List.noConfusion hc⟩
      | nil =>
        refine ⟨n + 1, B, [], by simp, hB, by simp, ?_, fun _ => rfl⟩
        intro z k hzk hk
        rcases Nat.lt_or_ge k (n + 1) with hlt | hge
        · exact hB4 z k hzk (by omega)
        · have hk1 : k = n + 1 := by omega
          subst hk1
          obtain ⟨p, hp, hpz⟩ := reachN_succ_decompose hzk
          have hpv : p ∈ vis := hB4 p n hp le_rfl
          have hpq : p ∉ ([] : List V) ++ B := by
            simp only [List.nil_append]
            intro hpB
            obtain ⟨m, hwdm, _, hmin⟩ := hB2 p hpv
            have h1 : m ≤ n := hmin n hp
            have h2 : m = n + 1 := WD_functional hwdm (hB p hpB)
            omega
          exact hB3 p hpv hpq z hpz
    rw [hq] at h hqvis hB3
    cases A₂ with
    | nil =>
      rw [hnil rfl] at h
      simp [bfs_go] at h
    | cons v A0 =>
      rw [List.cons_append] at h
      rw [bfs_go] at h
      have hv : v ∈ vis := hqvis v (by simp)
      by_cases hvg : v = goal
      · rw [if_pos hvg] at h
        simp only [Option.some.injEq] at h
        subst h
        subst hvg
        exact hB2 v hv
      · rw [if_neg hvg] at h
        cases hscan : bfs_scan goal v (childrenOf g v) (A0 ++ B₂) vis preds with
        | mk q' r =>
          obtain ⟨vis', preds', found⟩ := r
          rw [hscan] at h
          simp only at h
          have hwdv : WD preds v n₂ := hA₂ v (by simp)
          obtain ⟨m, hm, hrm, hminm⟩ := hB2 v hv
          have hmn : m = n₂ := WD_functional hm hwdv
          rw [hmn] at hrm
          obtain ⟨K', hwfp', hsync', hstab', hnew', hB2'⟩ :=
            bfs_scan_opt g s goal v n₂ (childrenOf g v) (A0 ++ B₂) vis preds K
              q' vis' preds' found hwfp hsync (fun c hc => hc)
              ((hsync v).mp hv) hwdv hrm hB4₂ hB2 hscan
          obtain ⟨ps, hqps, hvis, hps, hfalse, htrue⟩ :=
            bfs_scan_spec goal v (childrenOf g v) (A0 ++ B₂) vis preds
              q' vis' preds' found hscan
          cases found with
          | true =>
            rw [if_pos rfl] at h
            simp only [Option.some.injEq] at h
            subst h
            have hgps : goal ∈ ps := htrue rfl
            exact hB2' goal ((hvis goal).mpr (Or.inl hgps))
          | false =>
            simp only [if_neg (by simp : ¬ (false = true))] at h
            rw [hqps, List.append_assoc] at h
            refine ih n₂ A0 (B₂ ++ ps) vis' preds' K' P hwfp' hsync' ?_ ?_ ?_ hB2' ?_ ?_ h
            · intro x hx
              rcases List.mem_append.mp hx with hx | hx
              · exact (hvis x).mpr (Or.inr (hqvis x (List.mem_cons_of_mem _
                  (List.mem_append_left _ hx))))
              · rcases List.mem_append.mp hx with hx | hx
                · exact (hvis x).mpr (Or.inr (hqvis x (List.mem_cons_of_mem _
                    (List.mem_append_right _ hx))))
                · exact (hvis x).mpr (Or.inl hx)
            · intro x hx
              exact hstab' x n₂
                ((hsync x).mp (hqvis x (List.mem_cons_of_mem _ (List.mem_append_left _ hx))))
                (hA₂ x (List.mem_cons_of_mem _ hx))
            · intro x hx
              rcases List.mem_append.mp hx with hx | hx
              · exact hstab' x (n₂ + 1)
                  ((hsync x).mp (hqvis x (List.mem_cons_of_mem _ (List.mem_append_right _ hx))))
                  (hB₂ x hx)
              · exact hnew' x ((hvis x).mpr (Or.inl hx)) (hps x hx).1
            · intro x hx hxq w hw
              rcases (hvis x).mp hx with hxp | hxv
              · exact absurd (List.mem_append.mpr (Or.inr (List.mem_append.mpr (Or.inr hxp)))) hxq
              · by_cases hxv2 : x = v
                · exact (hfalse rfl).1 w (hxv2 ▸ hw)
                · have hxq0 : x ∉ (v :: A0) ++ B₂ := by
                    rw [List.cons_append, List.mem_cons]
                    rintro (hc | hc)
                    · exact hxv2 hc
                    · rcases List.mem_append.mp hc with hc | hc
                      · exact hxq (List.mem_append.mpr (Or.inl hc))
                      · exact hxq (List.mem_append.mpr (Or.inr (List.mem_append.mpr (Or.inl hc))))
                  exact (hvis w).mpr (Or.inr (hB3 x hxv hxq0 w hw))
            · intro z k hz hk
              exact (hvis z).mpr (Or.inr (hB4₂ z k hz hk))


/-- The predecessor map returned by `find_shortest_path` records the goal at
a minimal step count from the start. -/
theorem find_shortest_path_min {g : Graph} {c a : V} {P : List (V × V)}
    (hsp : find_shortest_path g c a = some P) :
    ∃ m, WD P a m ∧ ReachN g m c a ∧ ∀ k, ReachN g k c a → m ≤ k := by
  unfold find_shortest_path at hsp
  cases hb : bfs_go g a (bfsFuel g) [c] [c] [] with
  | none => rw [hb] at hsp; simp at hsp
  | some r =>
    cases r with
    | none => rw [hb] at hsp; simp at hsp
    | some P0 =>
      rw [hb] at hsp
      simp only [Option.getD_some, Option.some.injEq] at hsp
      subst hsp
      have hb2 : bfs_go g a (bfsFuel g) ([c] ++ []) [c] [] = some (some P0) := by
        simpa using hb
      refine bfs_go_opt g c a (bfsFuel g) 0 [c] [] [c] [] [] P0 WFP.nil
        (by intro x; simp) (by simp) ?_ (by simp) ?_ (by simp) ?_ hb2
      · intro x hx
        rw [List.mem_singleton] at hx
        subst hx
        exact ⟨[x], CrawlsTo.stop rfl, rfl⟩
      · intro x hx
        rw [List.mem_singleton] at hx
        subst hx
        exact ⟨0, ⟨[x], CrawlsTo.stop rfl, rfl⟩, ReachN.refl _, fun k _ => Nat.zero_le _⟩
      · intro z k hz hk
        have hk0 : k = 0 := by omega
        subst hk0
        rw [List.mem_singleton]
        exact (reachN_zero hz).symm

/-- C7 (amended): for every graph built by `add_edge` calls on which the DFS
reports the back edge `(c, a)`, `find_cycle` returns `q ++ [c]` where `q` is
a shortest directed path from `c` to `a`: its `k` vertices are distinct,
consecutive pairs are edges, and no edge path from `c` to `a` is shorter, so
the whole returned path has exactly `k + 1` elements. -/
theorem C7_cycle_shortest (es : List (V × V)) (c a : V)
    (h : find_back_edge (buildGraph es) = some (c, a)) :
    ∃ q : List V, find_cycle (buildGraph es) = some (q ++ [c]) ∧
      q.head? = some c ∧ q.getLast? = some a ∧ q.Nodup ∧
      List.Chain' (Edge (buildGraph es)) q ∧
      (q ++ [c]).length = q.length + 1 ∧
      ∀ q' : List V, q'.head? = some c → q'.getLast? = some a →
        List.Chain' (Edge (buildGraph es)) q' → q.length ≤ q'.length := by
  obtain ⟨q, hfc, hh, hl, hnd, hch, hedge⟩ := find_cycle_of_back_edge h
  obtain ⟨_, hr⟩ := find_back_edge_sound h
  obtain ⟨P, K, hsp, hwfp, hgoal, hedges⟩ := find_shortest_path_spec hr
  obtain ⟨m, hwd, hrm, hmin⟩ := find_shortest_path_min hsp
  obtain ⟨t, hct, hhead, hlast, hnd2, hmem, hch2⟩ := WFP_chain_exists hwfp a hgoal
  have hKP : P.length = K.length := by
    rw [← WFP_keys hwfp]
    simp
  have hlen : t.length ≤ P.length + 2 := by
    have := chain_length_le hnd2 hmem
    omega
  have hrec : reconstruct_cycle_path c a P = t.reverse ++ [c] :=
    reconstruct_eq hct hhead hlen
  have hfc2 : find_cycle (buildGraph es) = some (t.reverse ++ [c]) := by
    simp only [find_cycle, h, hsp]
    rw [hrec]
  have hq : q = t.reverse := by
    rw [hfc] at hfc2
    simp only [Option.some.injEq] at hfc2
    exact List.append_cancel_right hfc2
  obtain ⟨t2, hct2, hlen2⟩ := hwd
  have ht2 : t = t2 := crawlsTo_unique hct hct2
  have hqlen : q.length = m + 1 := by
    rw [hq, List.length_reverse, ht2, hlen2]
  refine ⟨q, hfc, hh, hl, hnd, hch, by simp, ?_⟩
  intro q' hh2 hl2 hch3
  have hq'len : 1 ≤ q'.length := by
    cases q' with
    | nil => simp at hh2
    | cons _ _ => simp
  have hreach : ReachN (buildGraph es) (q'.length - 1) c a :=
    chain_to_reachN q' hh2 hl2 hch3
  have := hmin (q'.length - 1) hreach
  omega

/-- C7 witness: on the two-cycle `A→B, B→A` the back edge `("A", "B")` is
found and the conclusion holds. -/
theorem C7_cycle_shortest_witness :
    find_back_edge (buildGraph [("A", "B"), ("B", "A")]) = some ("A", "B") ∧
      ∃ q : List V,
        find_cycle (buildGraph [("A", "B"), ("B", "A")]) = some (q ++ ["A"]) ∧
        q.head? = some "A" ∧ q.getLast? = some "B" ∧ q.Nodup ∧
        List.Chain' (Edge (buildGraph [("A", "B"), ("B", "A")])) q ∧
        (q ++ ["A"]).length = q.length + 1 ∧
        ∀ q' : List V, q'.head? = some "A" → q'.getLast? = some "B" →
          List.Chain' (Edge (buildGraph [("A", "B"), ("B", "A")])) q' →
          q.length ≤ q'.length := by
  have he : find_back_edge (buildGraph [("A", "B"), ("B", "A")]) = some ("A", "B") := by
    decide
  exact ⟨he, C7_cycle_shortest [("A", "B"), ("B", "A")] "A" "B" he⟩


/-! ### Matcher lemmas -/

theorem matchAt_cons_ne_hash {c : Char} {rest : Str} (h : c ≠ '#') :
    matchAt (c :: rest) = none := by
  unfold matchAt
  have : dropLit includeLit (c :: rest) = none := by
    show dropLit ('#' :: "include".toList) (c :: rest) = none
    unfold dropLit
    rw [if_neg h]
  rw [this]

theorem scanFrom_shift :
    ∀ (u : Str) (pos : Nat), scanFrom u pos =
      (scanFrom u 0).map (fun r => (r.1 + pos, r.2.1, r.2.2)) := by
  intro u
  induction u with
  | nil => intro pos; rfl
  | cons c rest ih =>
    intro pos
    rw [scanFrom, scanFrom]
    cases hm : matchAt (c :: rest) with
    | some r => simp
    | none =>
      simp only
      rw [ih (pos + 1), ih 1, Option.map_map]
      cases scanFrom rest 0 with
      | none => rfl
      | some r =>
        simp only [Option.map_some', Function.comp_apply, Option.some.injEq,
          Prod.mk.injEq]
        exact ⟨by omega, trivial⟩

theorem scanFrom_append_noHash {t : Str} (h : noHash t) :
    ∀ (u : Str) (pos : Nat), scanFrom (t ++ u) pos = scanFrom u (pos + t.length) := by
  induction t with
  | nil => intro u pos; simp
  | cons c rest ih =>
    intro u pos
    rw [List.cons_append, scanFrom,
      matchAt_cons_ne_hash (h c (List.mem_cons_self _ _))]
    simp only
    rw [ih (fun x hx => h x (List.mem_cons_of_mem _ hx)) u (pos + 1)]
    congr 1
    simp
    omega

theorem findMatch_noHash {t : Str} (h : noHash t) : findMatch t = none := by
  have := scanFrom_append_noHash h [] 0
  simpa [findMatch, scanFrom] using this

theorem findMatch_append_noHash {t : Str} (h : noHash t) (u : Str) :
    findMatch (t ++ u) = (findMatch u).map (fun r => (r.1 + t.length, r.2.1, r.2.2)) := by
  rw [findMatch, scanFrom_append_noHash h u 0, findMatch]
  simp only [Nat.zero_add]
  rw [scanFrom_shift u t.length]

/-! ### Resolver step lemmas -/

theorem process_file_step (fs : FileSys) (fuel : Nat) (p : String) (g : Graph)
    (content : Str) (hr : readFile fs p = some content) :
    process_file fs (fuel + 1) p g = process_includes fs fuel p content g := by
  rw [process_file, hr]

theorem process_file_missing (fs : FileSys) (fuel : Nat) (p : String) (g : Graph)
    (hr : readFile fs p = none) :
    process_file fs (fuel + 1) p g = some (.error (.documentUnreadable p)) := by
  rw [process_file, hr]

theorem process_includes_done (fs : FileSys) (fuel : Nat) (p : String)
    (content : Str) (g : Graph) (h : findMatch content = none) :
    process_includes fs (fuel + 1) p content g = some (.ok (content, g)) := by
  rw [process_includes, h]

theorem process_includes_cycle (fs : FileSys) (fuel : Nat) (p : String)
    (content : Str) (g : Graph) {st len : Nat} {cap : Str} {cyc : List V}
    (hm : findMatch content = some (st, len, cap))
    (hc : find_cycle (add_edge g p (String.mk cap)) = some cyc) :
    process_includes fs (fuel + 1) p content g
      = some (.error (.circularDependency cyc)) := by
  rw [process_includes, hm]
  simp only [resolve_path, hc]

theorem process_includes_step (fs : FileSys) (fuel : Nat) (p : String)
    (content : Str) (g : Graph) {st len : Nat} {cap : Str}
    (hm : findMatch content = some (st, len, cap))
    (hnc : find_cycle (add_edge g p (String.mk cap)) = none) :
    process_includes fs (fuel + 1) p content g
      = match process_file fs fuel (String.mk cap) (add_edge g p (String.mk cap)) with
        | none => none
        | some (.error e) => some (.error e)
        | some (.ok (txt, g2)) =>
          process_includes fs fuel p (content.take st ++ txt ++ content.drop (st + len)) g2 := by
  rw [process_includes, hm]
  simp only [resolve_path, hnc]

/-- A single edge between two distinct vertices forms an acyclic graph. -/
theorem find_cycle_single_edge {src tgt : V} (hne : src ≠ tgt) :
    find_cycle [(src, [tgt])] = none := by
  have hedge_char : ∀ u w, Edge [(src, [tgt])] u w → u = src ∧ w = tgt := by
    intro u w huw
    unfold Edge childrenOf lookupChildren at huw
    by_cases hus : src = u
    · subst hus
      simp at huw
      exact ⟨rfl, huw⟩
    · rw [if_neg hus] at huw
      simp [lookupChildren] at huw
  have hnc : ¬ HasCycle [(src, [tgt])] := by
    rintro ⟨u, w, huw, hwu⟩
    obtain ⟨hu1, hw1⟩ := hedge_char u w huw
    rw [hu1, hw1] at hwu
    rcases hwu.cases_head with hc | ⟨b, hb, _⟩
    · exact hne hc.symm
    · obtain ⟨hb1, _⟩ := hedge_char tgt b hb
      exact hne hb1.symm
  simp only [find_cycle, find_back_edge_none_of_acyclic hnc]

/-- C6: resolving a text with no match of the directive pattern returns it
unchanged, byte for byte, with the graph untouched; in particular the empty
text resolves to the empty text. -/
theorem C6_no_directive (fs : FileSys) (fuel : Nat) (p : String) (content : Str)
    (g : Graph) (h : findMatch content = none) :
    process_includes fs (fuel + 1) p content g = some (.ok (content, g)) :=
  process_includes_done fs fuel p content g h

/-- C6 witness: the empty document resolves to the empty string. -/
theorem C6_no_directive_witness :
    findMatch ([] : Str) = none ∧
      process_includes [] (0 + 1) "A" [] [] = some (.ok (([] : Str), ([] : Graph))) :=
  ⟨rfl, C6_no_directive [] 0 "A" [] [] rfl⟩


/-- C5 (amended): resolving from an empty graph a document whose text has a
directive match referencing a target with no directives of its own yields
the text with exactly the matched span replaced by the target's raw text,
provided the spliced text contains no further match of the directive
pattern (otherwise the scan loop keeps resolving the newly formed
directives). -/
theorem C5_single_directive (fs : FileSys) (fuel : Nat) (src : String)
    (content tcontent : Str) (st len : Nat) (cap : Str)
    (hm : findMatch content = some (st, len, cap))
    (hne : src ≠ String.mk cap)
    (htgt : readFile fs (String.mk cap) = some tcontent)
    (hnom : findMatch tcontent = none)
    (hres : findMatch (content.take st ++ tcontent ++ content.drop (st + len)) = none) :
    process_includes fs (fuel + 3) src content []
      = some (.ok (content.take st ++ tcontent ++ content.drop (st + len),
          [(src, [String.mk cap])])) := by
  have hg1 : add_edge [] src (String.mk cap) = [(src, [String.mk cap])] := rfl
  have htg : process_file fs (fuel + 2) (String.mk cap) [(src, [String.mk cap])]
      = some (.ok (tcontent, [(src, [String.mk cap])])) := by
    rw [show fuel + 2 = (fuel + 1) + 1 from rfl,
      process_file_step fs (fuel + 1) (String.mk cap) _ tcontent htgt]
    rw [show fuel + 1 = fuel + 1 from rfl,
      process_includes_done fs fuel (String.mk cap) tcontent _ hnom]
  rw [show fuel + 3 = (fuel + 2) + 1 from rfl,
    process_includes_step fs (fuel + 2) src content [] hm
      (hg1 ▸ find_cycle_single_edge hne)]
  rw [hg1, htg]
  show process_includes fs (fuel + 2) src
      (content.take st ++ tcontent ++ content.drop (st + len))
      [(src, [String.mk cap])] = _
  rw [show fuel + 2 = (fuel + 1) + 1 from rfl,
    process_includes_done fs (fuel + 1) src _ _ hres]

/-- C5 witness: a document with one directive whose target is plain text. -/
theorem C5_single_directive_witness :
    findMatch "x #include \"t\" y".toList = some (2, 12, "t".toList) ∧
      process_includes [("t", "abc".toList)] (0 + 3) "S" "x #include \"t\" y".toList []
        = some (.ok ("x #include \"t\" y".toList.take 2 ++ "abc".toList
            ++ "x #include \"t\" y".toList.drop (2 + 12),
            [("S", [String.mk "t".toList])])) := by
  have hm : findMatch "x #include \"t\" y".toList = some (2, 12, "t".toList) := by
    decide
  refine ⟨hm, C5_single_directive [("t", "abc".toList)] 0 "S" _ _ 2 12 "t".toList
    hm (by decide) (by decide) (by decide) (by decide)⟩

/-- C5 counterexample: the source text `#include #include "t"` has exactly
one directive match (at position 9), the target `t` has content `"X"` with
no directive match of its own, yet the resolver's output is `hello` (the
substitution creates a new directive `#include "X"` which is resolved in
turn), not the text with the matched span replaced by the target's raw
text. -/
theorem C5_counterexample :
    matchPositions "#include #include \"t\"".toList = [9] ∧
      findMatch "\"X\"".toList = none ∧
      process_file [("S", "#include #include \"t\"".toList),
          ("t", "\"X\"".toList), ("X", "hello".toList)] 9 "S" []
        = some (.ok ("hello".toList,
            [("S", [String.mk "t".toList, String.mk "X".toList])])) ∧
      "hello".toList ≠
        "#include #include \"t\"".toList.take 9 ++ "\"X\"".toList
          ++ "#include #include \"t\"".toList.drop (9 + 12) := by
  refine ⟨by decide, by decide, by rfl, by decide⟩


/-- C3: when document `A` includes `B` and `B` includes `A`, resolution
aborts with a `CircularDependency` error whose cycle path has exactly 3
entries, `(A, B, A)` for this traversal start, rendered with the arrow
separator; no flattened output is produced (the result is an error, not an
`ok`). -/
theorem C3_circular_abort (fuel : Nat) :
    process_file [("A", "#include \"B\"".toList), ("B", "#include \"A\"".toList)]
        (fuel + 4) "A" []
      = some (.error (.circularDependency ["A", "B", "A"])) ∧
    (["A", "B", "A"] : List V).length = 3 ∧
    renderCycle ["A", "B", "A"] = "A -> B -> A" := by
  have hmA : findMatch "#include \"B\"".toList = some (0, 12, "B".toList) := by
    decide
  have hmB : findMatch "#include \"A\"".toList = some (0, 12, "A".toList) := by
    decide
  have hcyc1 : find_cycle (add_edge [] "A" (String.mk "B".toList)) = none := by
    decide
  have hg1 : add_edge [] "A" (String.mk "B".toList)
      = [("A", [String.mk "B".toList])] := rfl
  have hcyc2 : find_cycle (add_edge [("A", [String.mk "B".toList])]
      (String.mk "B".toList) (String.mk "A".toList)) = some ["A", "B", "A"] := by
    decide
  have hB : process_file [("A", "#include \"B\"".toList), ("B", "#include \"A\"".toList)]
      (fuel + 2) (String.mk "B".toList) [("A", [String.mk "B".toList])]
      = some (.error (.circularDependency ["A", "B", "A"])) := by
    rw [show fuel + 2 = (fuel + 1) + 1 from rfl,
      process_file_step _ (fuel + 1) (String.mk "B".toList) _
        "#include \"A\"".toList (by rfl)]
    rw [show fuel + 1 = fuel + 1 from rfl,
      process_includes_cycle _ fuel (String.mk "B".toList) _ _ hmB hcyc2]
  refine ⟨?_, rfl, by decide⟩
  rw [show fuel + 4 = (fuel + 3) + 1 from rfl,
    process_file_step _ (fuel + 3) "A" [] "#include \"B\"".toList (by rfl)]
  rw [show fuel + 3 = (fuel + 2) + 1 from rfl,
    process_includes_step _ (fuel + 2) "A" _ [] hmA hcyc1]
  rw [hg1, hB]


theorem take_append_len (t u : Str) (n : Nat) :
    (t ++ u).take (t.length + n) = t ++ u.take n := by
  induction t with
  | nil => simp
  | cons c rest ih =>
    rw [List.cons_append, List.length_cons,
      show rest.length + 1 + n = (rest.length + n) + 1 from by omega,
      List.take_succ_cons, ih, List.cons_append]

theorem drop_append_len (t u : Str) (n : Nat) :
    (t ++ u).drop (t.length + n) = u.drop n := by
  induction t with
  | nil => simp
  | cons c rest ih =>
    rw [List.cons_append, List.length_cons,
      show rest.length + 1 + n = (rest.length + n) + 1 from by omega,
      List.drop_succ_cons, ih]

/-- C4: the diamond `A` includes `B` and `C`; `B` and `C` each include `D`
(whose content contains no `#`, hence no directive): resolution succeeds
with no cycle error and the output contains `D`'s content twice, each
inclusion resolved independently. -/
theorem C4_diamond (fuel : Nat) (dtxt : Str) (hd : noHash dtxt) :
    process_file [("A", "#include \"B\"\n#include \"C\"".toList),
        ("B", "#include \"D\"".toList), ("C", "#include \"D\"".toList),
        ("D", dtxt)] (fuel + 7) "A" []
      = some (.ok (dtxt ++ '\n' :: dtxt,
          [("A", [String.mk "B".toList, String.mk "C".toList]),
           (String.mk "B".toList, [String.mk "D".toList]),
           (String.mk "C".toList, [String.mk "D".toList])])) := by
  have hmA : findMatch "#include \"B\"\n#include \"C\"".toList
      = some (0, 12, "B".toList) := by decide
  have hmD : findMatch "#include \"D\"".toList = some (0, 12, "D".toList) := by
    decide
  have hcyc1 : find_cycle (add_edge [] "A" (String.mk "B".toList)) = none := by
    decide
  have hg1 : add_edge [] "A" (String.mk "B".toList)
      = [("A", [String.mk "B".toList])] := rfl
  have hcyc2 : find_cycle (add_edge [("A", [String.mk "B".toList])]
      (String.mk "B".toList) (String.mk "D".toList)) = none := by decide
  have hg2 : add_edge [("A", [String.mk "B".toList])]
      (String.mk "B".toList) (String.mk "D".toList)
      = [("A", [String.mk "B".toList]),
         (String.mk "B".toList, [String.mk "D".toList])] := rfl
  have htext1 : ∀ g : Graph, ∀ k : Nat,
      process_includes [("A", "#include \"B\"\n#include \"C\"".toList),
        ("B", "#include \"D\"".toList), ("C", "#include \"D\"".toList),
        ("D", dtxt)] (k + 1)
        (String.mk "D".toList) dtxt g = some (.ok (dtxt, g)) :=
    fun g k => process_includes_done _ k _ dtxt g (findMatch_noHash hd)
  have hsplice1 : "#include \"D\"".toList.take 0
      ++ dtxt ++ "#include \"D\"".toList.drop (0 + 12) = dtxt := by
    rw [show "#include \"D\"".toList.take 0 = [] from rfl,
      show "#include \"D\"".toList.drop (0 + 12) = [] from rfl]
    simp
  -- resolving B from graph [("A", [B])] yields D's text and adds B → D
  have hB : process_file [("A", "#include \"B\"\n#include \"C\"".toList),
        ("B", "#include \"D\"".toList), ("C", "#include \"D\"".toList),
        ("D", dtxt)] (fuel + 5)
        (String.mk "B".toList) [("A", [String.mk "B".toList])]
      = some (.ok (dtxt,
          [("A", [String.mk "B".toList]),
           (String.mk "B".toList, [String.mk "D".toList])])) := by
    rw [show fuel + 5 = (fuel + 4) + 1 from rfl,
      process_file_step _ (fuel + 4) (String.mk "B".toList) _
        "#include \"D\"".toList (by rfl)]
    rw [show fuel + 4 = (fuel + 3) + 1 from rfl,
      process_includes_step _ (fuel + 3) (String.mk "B".toList) _ _ hmD hcyc2]
    rw [hg2]
    rw [show fuel + 3 = (fuel + 2) + 1 from rfl,
      process_file_step _ (fuel + 2) (String.mk "D".toList) _ dtxt (by rfl)]
    rw [show fuel + 2 = (fuel + 1) + 1 from rfl, htext1 _ (fuel + 1)]
    show process_includes _ (fuel + 3) (String.mk "B".toList)
      ("#include \"D\"".toList.take 0 ++ dtxt
        ++ "#include \"D\"".toList.drop (0 + 12)) _ = _
    rw [hsplice1]
    rw [show fuel + 3 = (fuel + 2) + 1 from rfl,
      process_includes_done _ (fuel + 2) _ dtxt _ (findMatch_noHash hd)]
  rw [show fuel + 7 = (fuel + 6) + 1 from rfl,
    process_file_step _ (fuel + 6) "A" []
      "#include \"B\"\n#include \"C\"".toList (by rfl)]
  rw [show fuel + 6 = (fuel + 5) + 1 from rfl,
    process_includes_step _ (fuel + 5) "A" _ [] hmA hcyc1]
  rw [hg1, hB]
  show process_includes _ (fuel + 5) "A"
      ("#include \"B\"\n#include \"C\"".toList.take 0
        ++ dtxt ++ "#include \"B\"\n#include \"C\"".toList.drop (0 + 12))
      [("A", [String.mk "B".toList]),
       (String.mk "B".toList, [String.mk "D".toList])] = _
  have hsplice2 : "#include \"B\"\n#include \"C\"".toList.take 0
      ++ dtxt ++ "#include \"B\"\n#include \"C\"".toList.drop (0 + 12)
      = dtxt ++ '\n' :: "#include \"C\"".toList := by
    rw [show "#include \"B\"\n#include \"C\"".toList.take 0 = [] from rfl,
      show "#include \"B\"\n#include \"C\"".toList.drop (0 + 12)
        = '\n' :: "#include \"C\"".toList from rfl]
    simp
  rw [hsplice2]
  have hm2 : findMatch (dtxt ++ '\n' :: "#include \"C\"".toList)
      = some (1 + dtxt.length, 12, "C".toList) := by
    rw [findMatch_append_noHash hd,
      show findMatch ('\n' :: "#include \"C\"".toList)
        = some (1, 12, "C".toList) from by decide]
    rfl
  have hcyc3 : find_cycle (add_edge
      [("A", [String.mk "B".toList]),
       (String.mk "B".toList, [String.mk "D".toList])]
      "A" (String.mk "C".toList)) = none := by decide
  have hg3 : add_edge
      [("A", [String.mk "B".toList]),
       (String.mk "B".toList, [String.mk "D".toList])]
      "A" (String.mk "C".toList)
      = [("A", [String.mk "B".toList, String.mk "C".toList]),
         (String.mk "B".toList, [String.mk "D".toList])] := rfl
  have hcyc4 : find_cycle (add_edge
      [("A", [String.mk "B".toList, String.mk "C".toList]),
       (String.mk "B".toList, [String.mk "D".toList])]
      (String.mk "C".toList) (String.mk "D".toList)) = none := by decide
  have hg4 : add_edge
      [("A", [String.mk "B".toList, String.mk "C".toList]),
       (String.mk "B".toList, [String.mk "D".toList])]
      (String.mk "C".toList) (String.mk "D".toList)
      = [("A", [String.mk "B".toList, String.mk "C".toList]),
         (String.mk "B".toList, [String.mk "D".toList]),
         (String.mk "C".toList, [String.mk "D".toList])] := rfl
  -- resolving C from the three-edge graph yields D's text and adds C → D
  have hC : process_file [("A", "#include \"B\"\n#include \"C\"".toList),
        ("B", "#include \"D\"".toList), ("C", "#include \"D\"".toList),
        ("D", dtxt)] (fuel + 4)
        (String.mk "C".toList)
        [("A", [String.mk "B".toList, String.mk "C".toList]),
         (String.mk "B".toList, [String.mk "D".toList])]
      = some (.ok (dtxt,
          [("A", [String.mk "B".toList, String.mk "C".toList]),
           (String.mk "B".toList, [String.mk "D".toList]),
           (String.mk "C".toList, [String.mk "D".toList])])) := by
    rw [show fuel + 4 = (fuel + 3) + 1 from rfl,
      process_file_step _ (fuel + 3) (String.mk "C".toList) _
        "#include \"D\"".toList (by rfl)]
    rw [show fuel + 3 = (fuel + 2) + 1 from rfl,
      process_includes_step _ (fuel + 2) (String.mk "C".toList) _ _ hmD hcyc4]
    rw [hg4]
    rw [show fuel + 2 = (fuel + 1) + 1 from rfl,
      process_file_step _ (fuel + 1) (String.mk "D".toList) _ dtxt (by rfl)]
    rw [show fuel + 1 = fuel + 1 from rfl, htext1 _ fuel]
    show process_includes _ (fuel + 2) (String.mk "C".toList)
      ("#include \"D\"".toList.take 0 ++ dtxt
        ++ "#include \"D\"".toList.drop (0 + 12)) _ = _
    rw [hsplice1]
    rw [show fuel + 2 = (fuel + 1) + 1 from rfl,
      process_includes_done _ (fuel + 1) _ dtxt _ (findMatch_noHash hd)]
  rw [show fuel + 5 = (fuel + 4) + 1 from rfl,
    process_includes_step _ (fuel + 4) "A" _ _ hm2 hcyc3]
  rw [hg3, hC]
  show process_includes _ (fuel + 4) "A"
      ((dtxt ++ '\n' :: "#include \"C\"".toList).take (1 + dtxt.length)
        ++ dtxt ++ (dtxt ++ '\n' :: "#include \"C\"".toList).drop
            (1 + dtxt.length + 12))
      [("A", [String.mk "B".toList, String.mk "C".toList]),
       (String.mk "B".toList, [String.mk "D".toList]),
       (String.mk "C".toList, [String.mk "D".toList])] = _
  have hsplice3 : (dtxt ++ '\n' :: "#include \"C\"".toList).take (1 + dtxt.length)
      ++ dtxt ++ (dtxt ++ '\n' :: "#include \"C\"".toList).drop
          (1 + dtxt.length + 12)
      = dtxt ++ '\n' :: dtxt := by
    rw [show 1 + dtxt.length + 12 = dtxt.length + 13 from by omega,
      drop_append_len dtxt ('\n' :: "#include \"C\"".toList) 13,
      show 1 + dtxt.length = dtxt.length + 1 from by omega,
      take_append_len dtxt ('\n' :: "#include \"C\"".toList) 1,
      show ('\n' :: "#include \"C\"".toList).take 1 = ['\n'] from rfl,
      show ('\n' :: "#include \"C\"".toList).drop 13 = [] from rfl]
    simp
  rw [hsplice3]
  have hnh : noHash (dtxt ++ '\n' :: dtxt) := by
    intro x hx
    rcases List.mem_append.mp hx with hx | hx
    · exact hd x hx
    · rcases List.mem_cons.mp hx with hx | hx
      · rw [hx]
        decide
      · exact hd x hx
  rw [show fuel + 4 = (fuel + 3) + 1 from rfl,
    process_includes_done _ (fuel + 3) "A" _ _ (findMatch_noHash hnh)]

/-- C4 witness: the diamond with `D` containing `float rand;`. -/
theorem C4_diamond_witness :
    noHash "float rand;".toList ∧
      process_file [("A", "#include \"B\"\n#include \"C\"".toList),
          ("B", "#include \"D\"".toList), ("C", "#include \"D\"".toList),
          ("D", "float rand;".toList)] (0 + 7) "A" []
        = some (.ok ("float rand;".toList ++ '\n' :: "float rand;".toList,
            [("A", [String.mk "B".toList, String.mk "C".toList]),
             (String.mk "B".toList, [String.mk "D".toList]),
             (String.mk "C".toList, [String.mk "D".toList])])) := by
  have hd : noHash "float rand;".toList := by decide
  exact ⟨hd, C4_diamond 0 "float rand;".toList hd⟩

end IncludeShader
